import Mathlib

/-!
Verification model of node-skinner (`lib/skinner.js`).

Bucketizers quantize non-negative numeric values into ordinal-indexed
buckets; sparse distributions are ordered `(ordinal, count)` lists; the
aggregator sums record values in a nested tree keyed by the string forms
of field values and flattens the tree into rows.

Modelling conventions, used throughout:
given that JavaScript numbers in this code are used exactly (integer bucket
arithmetic plus divisions by powers of the base), they are modelled as `ℚ`;
a thrown `AssertionError` is modelled as `Option.none` (for `bucketize`)
or a `crash` result (for the aggregator walk); the unbounded `while` loops
of the source are modelled with a fuel argument whose chosen value provably
suffices on the domains the theorems speak about.  Divisions that the
source performs on JavaScript numbers but that are exact natural-number
divisions in every reachable state (`orderbuckets / base`,
`maxorder / orderbuckets` for validly constructed log-linear bucketizers)
are modelled with `Nat` division.
-/

/-- The three bucketizer variants of the source: `skLinearBucketizer step`,
`skLogLinearBucketizer base nbuckets` and `skP2Bucketizer`. -/
inductive skBucketizer where
  | linear (step : ℚ)
  | loglinear (base nbuckets : ℕ)
  | p2
  deriving DecidableEq

/-- Loop of the `skLogLinearBucketizer` constructor:
`for (maxorder = base; maxorder < nbuckets; maxorder *= base)`, i.e. the
first power of `base` (starting from `base` itself) that reaches
`nbuckets`.  Arguments after `base`: fuel, `nbuckets`, `maxorder`.  For
`base ≥ 2` a fuel of `nbuckets` is provably enough. -/
def llFirstPowLoop (base : ℕ) : ℕ → ℕ → ℕ → ℕ
  | 0, _, maxorder => maxorder
  | fuel + 1, nbuckets, maxorder =>
    if maxorder < nbuckets then llFirstPowLoop base fuel nbuckets (maxorder * base)
    else maxorder

/-- Constructor checks of `skLogLinearBucketizer(base, nbuckets)`: the two
`mod_assert.ok` calls, `nbuckets % base === 0` and
`maxorder % nbuckets === 0` for the first power of `base` that is at least
`nbuckets`.  `true` means the constructor returns, `false` that it throws.
(The JavaScript `x % 0` is `NaN` and fails the `=== 0` comparison; with
`Nat.mod` this is matched for every `base ≥ 2`, the domain the theorems
use, because `m % 0 = m ≠ 0` there as well.) -/
def llConstructs (base nbuckets : ℕ) : Bool :=
  nbuckets % base == 0 && llFirstPowLoop base nbuckets nbuckets base % nbuckets == 0

/-- Loop of `skLogLinearBucketizer.prototype._valueToBucketIndex`
(`while (value >= maxorder) { ... }`).  State arguments after the fuel:
`totbuckets`, `prevorder`, `maxorder`, as in the source. -/
def llIndexLoop (base nbuckets : ℕ) (value : ℚ) : ℕ → ℕ → ℕ → ℕ → ℕ × ℕ × ℕ
  | 0, totbuckets, prevorder, maxorder => (totbuckets, prevorder, maxorder)
  | fuel + 1, totbuckets, prevorder, maxorder =>
    if (maxorder : ℚ) ≤ value then
      let orderbuckets := min maxorder nbuckets
      let uniquebuckets :=
        if prevorder = 0 then orderbuckets else orderbuckets - orderbuckets / base
      llIndexLoop base nbuckets value fuel (totbuckets + uniquebuckets) maxorder
        (maxorder * base)
    else (totbuckets, prevorder, maxorder)

/-- Loop of `skLogLinearBucketizer.prototype._bucketIndexToMin`
(`for (;;) { ... if (i + uniquebuckets > bidx) break; ... }`).  State
arguments after the fuel: `i`, `minorder`, `maxorder`, as in the source. -/
def llMinLoop (base nbuckets bidx : ℕ) : ℕ → ℕ → ℕ → ℕ → ℕ × ℕ × ℕ
  | 0, i, minorder, maxorder => (i, minorder, maxorder)
  | fuel + 1, i, minorder, maxorder =>
    let orderbuckets := min maxorder nbuckets
    let uniquebuckets :=
      if i = 0 then orderbuckets else orderbuckets - orderbuckets / base
    if bidx < i + uniquebuckets then (i, minorder, maxorder)
    else llMinLoop base nbuckets bidx fuel (i + uniquebuckets) maxorder (maxorder * base)

/-- Loop of `skP2Bucketizer.prototype._valueToBucketIndex`
(`while (2 * thresh <= value) { thresh *= 2; count++; }`).  Arguments after
the value: fuel, `thresh`, `count`. -/
def p2IndexLoop (value : ℚ) : ℕ → ℕ → ℕ → ℕ
  | 0, _, count => count
  | fuel + 1, thresh, count =>
    if 2 * (thresh : ℚ) ≤ value then p2IndexLoop value fuel (2 * thresh) (count + 1)
    else count

/-- The `_valueToBucketIndex` method of each variant.
Linear: `Math.floor(value / step)`.
Log-linear: run the magnitude loop, then
`totbuckets + Math.floor((value - prevorder) / stepsize)` with
`stepsize = maxorder / orderbuckets`.
Power-of-two: `0` for value `0`, otherwise the doubling count.
The result is a JavaScript number in the source; it is non-negative for
every non-negative value, and the model takes `Int.toNat` of the exact
integer the source computes. -/
def skBucketizer.valueToBucketIndex : skBucketizer → ℚ → ℕ
  | .linear step, value => (⌊value / step⌋).toNat
  | .loglinear base nbuckets, value =>
    let s := llIndexLoop base nbuckets value (⌊value⌋₊ + 1) 0 0 base
    let orderbuckets := min s.2.2 nbuckets
    let stepsize : ℚ := (s.2.2 : ℚ) / (orderbuckets : ℚ)
    ((s.1 : ℤ) + ⌊(value - (s.2.1 : ℚ)) / stepsize⌋).toNat
  | .p2, value => if value = 0 then 0 else p2IndexLoop value ⌊value⌋₊ 1 1

/-- The `_bucketIndexToMin` method of each variant.
Linear: `step * bidx`.  Log-linear: run the magnitude loop, then
`minorder + Math.floor((bidx - i) * bucketsize)` with
`bucketsize = maxorder / orderbuckets`.  Power-of-two: `0` for ordinal `0`,
otherwise `2^(bidx-1)`.  (At loop exit `i ≤ bidx` always holds, so the
`Nat` subtraction agrees with the source.) -/
def skBucketizer.bucketIndexToMin : skBucketizer → ℕ → ℚ
  | .linear step, bidx => step * bidx
  | .loglinear base nbuckets, bidx =>
    let s := llMinLoop base nbuckets bidx (bidx + 1) 0 0 base
    let orderbuckets := min s.2.2 nbuckets
    let bucketsize : ℚ := (s.2.2 : ℚ) / (orderbuckets : ℚ)
    (s.2.1 : ℚ) + (⌊((bidx - s.1 : ℕ) : ℚ) * bucketsize⌋ : ℤ)
  | .p2, bidx => if bidx = 0 then 0 else 2 ^ (bidx - 1)

/-- `skBucketizer.prototype.bucketMin`: just `_bucketIndexToMin` (the
`i >= 0` assertion is the `ℕ` type of the argument). -/
def skBucketizer.bucketMin (b : skBucketizer) (i : ℕ) : ℚ :=
  b.bucketIndexToMin i

/-- `skBucketizer.prototype.bucketMax`: the display-only approximate upper
bound of bucket `i`.  Its two assertions (`min >= 0`, `nextmin > min`) hold
for every validly constructed bucketizer (proved below), so the function is
modelled as total. -/
def skBucketizer.bucketMax (b : skBucketizer) (i : ℕ) : ℚ :=
  let mn := b.bucketIndexToMin i
  let nextmin := b.bucketIndexToMin (i + 1)
  if 1 ≤ nextmin - mn then nextmin - 1 else nextmin - (nextmin - mn) / 10

/-- `skBucketizer.prototype.bucketize`: scan the distribution in order; an
entry whose range `[bucketMin o, bucketMin (o+1))` contains the value is
incremented by the cardinality; the scan stops early at the first entry
whose minimum exceeds the value; otherwise a fresh entry
`(_valueToBucketIndex value, card)` is spliced in at the stop position.
The two non-redundant assertions
(`value >= bucketMin(bidx)` and `value < bucketMin(bidx+1)`) are checked
where the source checks them; their failure (a thrown `AssertionError`) is
`none`.  The two loop-invariant assertions of the source are consequences
of the scan and have no analogue here. -/
def skBucketizer.bucketize (b : skBucketizer) :
    List (ℕ × ℚ) → ℚ → ℚ → Option (List (ℕ × ℚ))
  | [], value, card =>
    let bidx := b.valueToBucketIndex value
    if b.bucketMin bidx ≤ value ∧ value < b.bucketMin (bidx + 1) then
      some [(bidx, card)]
    else none
  | (o, n) :: rest, value, card =>
    if b.bucketMin o ≤ value ∧ value < b.bucketMin (o + 1) then
      some ((o, n + card) :: rest)
    else if value < b.bucketMin o then
      let bidx := b.valueToBucketIndex value
      if b.bucketMin bidx ≤ value ∧ value < b.bucketMin (bidx + 1) then
        some ((bidx, card) :: (o, n) :: rest)
      else none
    else (b.bucketize rest value card).map (fun l => (o, n) :: l)

/-- Validity of a bucketizer configuration: positive step for the linear
variant, and constructor success for the log-linear variant.  The
log-linear case additionally requires `base ≥ 2`: for `base ≤ 1` the
constructor either diverges or accepts a configuration on which the
magnitude loops of `_valueToBucketIndex` and `_bucketIndexToMin` never
terminate, so no such bucketizer usable on values `≥ base` exists. -/
def skBucketizer.Valid : skBucketizer → Prop
  | .linear step => 0 < step
  | .loglinear base nbuckets => 2 ≤ base ∧ llConstructs base nbuckets = true
  | .p2 => True

/-- Fold `bucketize` over a list of `(value, cardinality)` observations
starting from the empty distribution; a thrown assertion (`none`) aborts
the rest, as an uncaught exception does in the source. -/
def bucketizeAll (b : skBucketizer) (obs : List (ℚ × ℚ)) : Option (List (ℕ × ℚ)) :=
  obs.foldl (fun od p => od.bind fun d => b.bucketize d p.1 p.2) (some [])

/-- Reference operation the scan of `bucketize` is compared against:
insertion into an ordinal-sorted association list, merging counts on an
existing ordinal. -/
def insertOrd : List (ℕ × ℚ) → ℕ → ℚ → List (ℕ × ℚ)
  | [], k, c => [(k, c)]
  | (o, n) :: rest, k, c =>
    if k = o then (o, n + c) :: rest
    else if k < o then (k, c) :: (o, n) :: rest
    else (o, n) :: insertOrd rest k c

/-- Specification sequence for the log-linear magnitude walk: the
`orderbuckets` of magnitude `e` (whose `maxorder` is `base ^ (e+1)`). -/
def llOB (base nbuckets e : ℕ) : ℕ :=
  min (base ^ (e + 1)) nbuckets

/-- Specification sequence: the `uniquebuckets` of magnitude `e`. -/
def llUniq (base nbuckets : ℕ) : ℕ → ℕ
  | 0 => llOB base nbuckets 0
  | e + 1 => llOB base nbuckets (e + 1) - llOB base nbuckets (e + 1) / base

/-- Specification sequence: ordinals assigned to magnitudes below `e`
(the `totbuckets` / `i` on entry to magnitude `e`). -/
def llCum (base nbuckets : ℕ) : ℕ → ℕ
  | 0 => 0
  | e + 1 => llCum base nbuckets e + llUniq base nbuckets e

/-- Specification sequence: the `prevorder` / `minorder` of magnitude `e`. -/
def llPrev (base : ℕ) : ℕ → ℕ
  | 0 => 0
  | e + 1 => base ^ (e + 1)

/-- Specification sequence: the linear step width inside magnitude `e`
(`maxorder / orderbuckets`; exact for valid configurations). -/
def llStep (base nbuckets e : ℕ) : ℕ :=
  base ^ (e + 1) / llOB base nbuckets e

/-- JavaScript field values as they reach the aggregator: numbers, strings,
booleans, and `undefined` (a missing field). -/
inductive JSVal where
  | num (q : ℚ)
  | str (s : String)
  | boolean (b : Bool)
  | missing
  deriving DecidableEq

/-- A data point: labelled fields and a numeric value to sum. -/
structure DataPoint where
  fields : List (String × JSVal)
  value : ℚ
  deriving DecidableEq

/-- Modelled from the spec: the external collaborator
`pluck(fields, dottedPath) -> value | undefined` (module `jsprim`, not part
of this repository).  For the flat field names the claims use it is
first-match association lookup, with a missing field giving `undefined`. -/
def pluck (fields : List (String × JSVal)) (f : String) : JSVal :=
  match fields.lookup f with
  | some v => v
  | none => .missing

/-- Modelled from the spec: the numeric parse applied to a string field
value (`parseFloat` in the source, a JavaScript builtin).  The claims
depend only on whether the parse yields a finite number; the model parses
non-empty digit strings and rejects everything else (such as `"bogus!"`). -/
def parseNum (s : String) : Option ℚ :=
  if s.data ≠ [] ∧ s.data.all Char.isDigit then
    some ((s.toNat?.getD 0 : ℕ) : ℚ)
  else none

/-- Modelled from the spec: JavaScript string conversion of a value used as
an object property key (tree keys are canonical strings). -/
def jsToString : JSVal → String
  | .str s => s
  | .num q => if q.den = 1 then toString q.num else toString q
  | .boolean b => if b then "true" else "false"
  | .missing => "undefined"

/-- Numeric coercion of a quantized field's extracted value, as in
`skAggregator.prototype.aggregate`: numbers pass through, strings are
parsed, everything else (undefined, booleans, parse failures alias `NaN`)
is non-numeric. -/
def coerceNum : JSVal → Option ℚ
  | .num q => some q
  | .str s => parseNum s
  | _ => none

/-- Count of numeric parse attempts a field value causes (`sa_nparsed` is
incremented exactly when the raw value is a string). -/
def parseDelta : JSVal → ℕ
  | .str _ => 1
  | _ => 0

/-- The aggregation tree: a leaf accumulator or a key-ordered list of
children (a JavaScript object in insertion order; the claims settled here
never depend on the runtime's reordering of integer-like keys). -/
inductive Node where
  | leaf (q : ℚ)
  | branch (kvs : List (String × Node))

/-- Store `t` under key `k`: replace the existing entry, else append (the
creation order of JavaScript object properties). -/
def setKey (kvs : List (String × Node)) (k : String) (t : Node) :
    List (String × Node) :=
  if (kvs.lookup k).isSome then
    kvs.map (fun p => if p.1 = k then (k, t) else p)
  else kvs ++ [(k, t)]

/-- Result of one record's tree walk: the updated tree with the parse-count
delta, or a quantization failure naming the offending field and carrying
the tree as mutated so far, or a thrown structural assertion (`crash`,
unreachable from the initial state). -/
inductive UpdRes where
  | ok (t : Node) (nparsed : ℕ)
  | fail (field : String) (nparsed : ℕ) (t : Node)
  | crash

/-- The tree walk of `skAggregator.prototype.aggregate`, one decomposition
field per recursion step.  A quantized field (one present in the
bucketizer map) has its value coerced to a number and replaced by its
bucket ordinal before being used as a key, and a non-numeric value aborts
the walk right there — nodes already created for earlier fields remain, as
they do in the source.  Missing children are created as `{}` (inner level)
or `0` (last level) and then descended into. -/
def updateTree (bzs : List (String × skBucketizer)) (fields : List (String × JSVal))
    (v : ℚ) : List String → Node → UpdRes
  | [], .leaf q => .ok (.leaf (q + v)) 0
  | [], .branch _ => .crash
  | _ :: _, .leaf _ => .crash
  | f :: rest, .branch kvs =>
    let fv := pluck fields f
    match bzs.lookup f with
    | some bz =>
      match coerceNum fv with
      | none => .fail f (parseDelta fv) (.branch kvs)
      | some q =>
        let key := jsToString (.num ((bz.valueToBucketIndex q : ℕ) : ℚ))
        let child :=
          match kvs.lookup key with
          | some c => c
          | none => if rest.isEmpty then Node.leaf 0 else Node.branch []
        match updateTree bzs fields v rest child with
        | .ok t2 pd2 => .ok (.branch (setKey kvs key t2)) (parseDelta fv + pd2)
        | .fail f2 pd2 t2 =>
          .fail f2 (parseDelta fv + pd2) (.branch (setKey kvs key t2))
        | .crash => .crash
    | none =>
      let key := jsToString fv
      let child :=
        match kvs.lookup key with
        | some c => c
        | none => if rest.isEmpty then Node.leaf 0 else Node.branch []
      match updateTree bzs fields v rest child with
      | .ok t2 pd2 => .ok (.branch (setKey kvs key t2)) pd2
      | .fail f2 pd2 t2 => .fail f2 pd2 (.branch (setKey kvs key t2))
      | .crash => .crash

/-- Configuration of an aggregator: the ordered decomposition fields and
the field-to-bucketizer map. -/
structure AggConfig where
  decomps : List String
  bucketizers : List (String × skBucketizer)

/-- Mutable state of an `skAggregator`: the value tree, the three counters,
and the list of `invalid_object` emissions (data point, error message,
1-based record index). -/
structure AggState where
  sa_value : Node
  sa_nrecords : ℕ
  sa_nparsed : ℕ
  sa_nnonnumeric : ℕ
  emitted : List (DataPoint × String × ℕ)

/-- The `invalid_object` error message,
`value for field "<field>" is not a number`. -/
def failMessage (f : String) : String :=
  "value for field \"" ++ f ++ "\" is not a number"

/-- Initial state of the `skAggregator` constructor: a scalar `0` with no
decompositions, else an empty tree; all counters zero. -/
def initAggState (cfg : AggConfig) : AggState :=
  { sa_value := if cfg.decomps.isEmpty then .leaf 0 else .branch []
    sa_nrecords := 0
    sa_nparsed := 0
    sa_nnonnumeric := 0
    emitted := [] }

/-- One call of `skAggregator.prototype.aggregate`: bump the record count,
walk the tree, and on a quantization failure bump `sa_nnonnumeric` and
emit `invalid_object` with the original point, the error message and the
1-based record index.  The `crash` case is a thrown structural assertion,
unreachable from the initial state. -/
def aggregate (cfg : AggConfig) (st : AggState) (r : DataPoint) : AggState :=
  let n := st.sa_nrecords + 1
  match updateTree cfg.bucketizers r.fields r.value cfg.decomps st.sa_value with
  | .ok t pd =>
    { st with sa_value := t, sa_nrecords := n, sa_nparsed := st.sa_nparsed + pd }
  | .fail f pd t =>
    { st with
      sa_value := t
      sa_nrecords := n
      sa_nparsed := st.sa_nparsed + pd
      sa_nnonnumeric := st.sa_nnonnumeric + 1
      emitted := st.emitted ++ [(r, failMessage f, n)] }
  | .crash => st

/-- One cell of a flattened result row: a tree key (string) or a number. -/
inductive Cell where
  | s (x : String)
  | n (q : ℚ)
  deriving DecidableEq

/-- Modelled from the spec: `flattenObject(value, depth)` (module `jsprim`,
not part of this repository) — enumerate the tree to the given depth, one
row per leaf, each row being the keys on the path followed by the leaf
value.  Keys are enumerated in insertion order. -/
def flattenNode : ℕ → Node → List (List Cell)
  | 0, .leaf q => [[Cell.n q]]
  | 0, .branch _ => []
  | _ + 1, .leaf _ => []
  | d + 1, .branch kvs =>
    kvs.flatMap fun p => (flattenNode d p.2).map (Cell.s p.1 :: ·)

/-- The `+row[i]` coercion of `skAggregator.prototype.result`: a tree key
that was a bucket ordinal is turned back into a number. -/
def cellToNum : Cell → Cell
  | .s s => .n ((s.toNat?.getD 0 : ℕ) : ℚ)
  | c => c

/-- `skAggregator.prototype.result`: flatten the tree to the decomposition
depth, then re-coerce to numbers exactly the columns of fields present in
the bucketizer map. -/
def resultRows (cfg : AggConfig) (st : AggState) : List (List Cell) :=
  (flattenNode cfg.decomps.length st.sa_value).map fun row =>
    row.mapIdx fun i c =>
      match cfg.decomps[i]? with
      | some f => if (cfg.bucketizers.lookup f).isSome then cellToNum c else c
      | none => c

/-- The batch interface `skAggregate(datapts, decomps, bucketizers)`:
construct, aggregate every point, return `result()`. -/
def skAggregate (datapts : List DataPoint) (decomps : List String)
    (bucketizers : List (String × skBucketizer)) : List (List Cell) :=
  let cfg : AggConfig := ⟨decomps, bucketizers⟩
  resultRows cfg (datapts.foldl (aggregate cfg) (initAggState cfg))

/-- Observer: the leaf accumulator reached by a key path, if any. -/
def leafSum : Node → List String → Option ℚ
  | .leaf q, [] => some q
  | .branch kvs, k :: p =>
    match kvs.lookup k with
    | some c => leafSum c p
    | none => none
  | .leaf _, _ :: _ => none
  | .branch _, [] => none

/-- Observer: the top-level keys of the tree (in stored order). -/
def topKeys : Node → List String
  | .leaf _ => []
  | .branch kvs => kvs.map Prod.fst

/-- Shape invariant of reachable trees: depth matches the number of
remaining decomposition levels, keys are distinct at every branch. -/
def WFNode : ℕ → Node → Prop
  | 0, t => ∃ q, t = .leaf q
  | d + 1, t =>
    ∃ kvs, t = .branch kvs ∧ (kvs.map Prod.fst).Nodup ∧ ∀ p ∈ kvs, WFNode d p.2

/-! Power-of-two bucketizer characterization. -/

lemma p2IndexLoop_stop {v : ℚ} {c : ℕ} (hc : 1 ≤ c) (hv : v < (2 ^ c : ℕ)) :
    ∀ fuel, p2IndexLoop v fuel (2 ^ (c - 1)) c = c := by
  intro fuel
  cases fuel with
  | zero => rfl
  | succ f =>
    have h2 : (2 : ℚ) * ((2 ^ (c - 1) : ℕ) : ℚ) = ((2 ^ c : ℕ) : ℚ) := by
      push_cast
      rw [← pow_succ']
      congr 1
      omega
    simp only [p2IndexLoop, h2]
    rw [if_neg (by exact_mod_cast not_le.mpr hv)]

lemma p2IndexLoop_step {v : ℚ} {c : ℕ} (hc : 1 ≤ c) (hv : ((2 ^ c : ℕ) : ℚ) ≤ v)
    (fuel : ℕ) :
    p2IndexLoop v (fuel + 1) (2 ^ (c - 1)) c = p2IndexLoop v fuel (2 ^ c) (c + 1) := by
  have h2 : (2 : ℚ) * ((2 ^ (c - 1) : ℕ) : ℚ) = ((2 ^ c : ℕ) : ℚ) := by
    push_cast
    rw [← pow_succ']
    congr 1
    omega
  have h3 : 2 * 2 ^ (c - 1) = 2 ^ c := by
    rw [← pow_succ']
    congr 1
    omega
  simp only [p2IndexLoop, h2]
  rw [if_pos (by exact_mod_cast hv), h3]

lemma p2IndexLoop_run {v : ℚ} :
    ∀ j fuel, j ≤ fuel → (∀ i, 1 ≤ i → i ≤ j → ((2 ^ i : ℕ) : ℚ) ≤ v) →
      p2IndexLoop v fuel 1 1 = p2IndexLoop v (fuel - j) (2 ^ j) (j + 1) := by
  intro j
  induction j with
  | zero => intro fuel _ _; simp
  | succ k ih =>
    intro fuel hle hall
    have h1 : p2IndexLoop v fuel 1 1 = p2IndexLoop v (fuel - k) (2 ^ k) (k + 1) :=
      ih fuel (by omega) (fun i h1 h2 => hall i h1 (by omega))
    have h2 : fuel - k = (fuel - (k + 1)) + 1 := by omega
    rw [h1, h2]
    have := p2IndexLoop_step (v := v) (c := k + 1) (by omega)
      (hall (k + 1) (by omega) le_rfl) (fuel - (k + 1))
    simpa using this

/-- Closed form of the power-of-two `_valueToBucketIndex` on non-negative
values: `0` at `0`, else one more than the base-2 logarithm of the floor.
In particular every value strictly between 0 and 1 is sent to ordinal 1. -/
lemma p2_valueToBucketIndex_eq {v : ℚ} (hv : 0 ≤ v) :
    skBucketizer.p2.valueToBucketIndex v =
      if v = 0 then 0 else Nat.log 2 ⌊v⌋₊ + 1 := by
  show (if v = 0 then 0 else p2IndexLoop v ⌊v⌋₊ 1 1) =
    if v = 0 then 0 else Nat.log 2 ⌊v⌋₊ + 1
  by_cases h0 : v = 0
  · simp [h0]
  · rw [if_neg h0, if_neg h0]
    set L := Nat.log 2 ⌊v⌋₊ with hL
    have hfl : L ≤ ⌊v⌋₊ := Nat.log_le_self 2 _
    have hrun := p2IndexLoop_run (v := v) L ⌊v⌋₊ hfl ?_
    · have hstop : p2IndexLoop v (⌊v⌋₊ - L) (2 ^ L) (L + 1) = L + 1 := by
        have hlt : v < ((2 ^ (L + 1) : ℕ) : ℚ) := by
          have := Nat.lt_pow_succ_log_self (b := 2) one_lt_two ⌊v⌋₊
          exact_mod_cast (Nat.floor_lt hv).mp this
        have := p2IndexLoop_stop (v := v) (c := L + 1) (by omega) hlt (⌊v⌋₊ - L)
        simpa using this
      simpa [hstop] using hrun
    · intro i h1 h2
      have hne : ⌊v⌋₊ ≠ 0 := by
        intro h
        rw [h] at hL
        simp [Nat.log] at hL
        omega
      have : (2 : ℕ) ^ i ≤ ⌊v⌋₊ := by
        calc (2 : ℕ) ^ i ≤ 2 ^ L := Nat.pow_le_pow_right (by omega) h2
        _ ≤ ⌊v⌋₊ := Nat.pow_log_le_self 2 hne
      calc ((2 ^ i : ℕ) : ℚ) ≤ (⌊v⌋₊ : ℚ) := by exact_mod_cast this
      _ ≤ v := Nat.floor_le hv

lemma p2_roundtrip (i : ℕ) :
    skBucketizer.p2.valueToBucketIndex (skBucketizer.p2.bucketIndexToMin i) = i := by
  cases i with
  | zero => simp [skBucketizer.bucketIndexToMin, skBucketizer.valueToBucketIndex]
  | succ j =>
    have hmin : skBucketizer.p2.bucketIndexToMin (j + 1) = ((2 ^ j : ℕ) : ℚ) := by
      simp [skBucketizer.bucketIndexToMin]
    rw [hmin, p2_valueToBucketIndex_eq (by positivity)]
    rw [if_neg (by positivity), Nat.floor_natCast, Nat.log_pow one_lt_two]

lemma p2_containment {v : ℚ} (hv : 0 ≤ v) (hs : v = 0 ∨ 1 ≤ v) :
    skBucketizer.p2.bucketMin (skBucketizer.p2.valueToBucketIndex v) ≤ v ∧
      v < skBucketizer.p2.bucketMin (skBucketizer.p2.valueToBucketIndex v + 1) := by
  rcases hs with h0 | h1
  · subst h0
    constructor
    · simp [skBucketizer.valueToBucketIndex, skBucketizer.bucketMin,
        skBucketizer.bucketIndexToMin]
    · simp [skBucketizer.valueToBucketIndex, skBucketizer.bucketMin,
        skBucketizer.bucketIndexToMin]
  · have h0 : v ≠ 0 := by linarith
    rw [p2_valueToBucketIndex_eq hv, if_neg h0]
    have hne : ⌊v⌋₊ ≠ 0 := by
      have : 1 ≤ ⌊v⌋₊ := Nat.le_floor (by exact_mod_cast h1)
      omega
    constructor
    · show skBucketizer.p2.bucketIndexToMin (Nat.log 2 ⌊v⌋₊ + 1) ≤ v
      simp only [skBucketizer.bucketIndexToMin, Nat.add_sub_cancel]
      rw [if_neg (by omega)]
      have h2 : (2 : ℕ) ^ Nat.log 2 ⌊v⌋₊ ≤ ⌊v⌋₊ := Nat.pow_log_le_self 2 hne
      calc (2 : ℚ) ^ Nat.log 2 ⌊v⌋₊ = ((2 ^ Nat.log 2 ⌊v⌋₊ : ℕ) : ℚ) := by push_cast; ring
      _ ≤ (⌊v⌋₊ : ℚ) := by exact_mod_cast h2
      _ ≤ v := Nat.floor_le hv
    · show v < skBucketizer.p2.bucketIndexToMin (Nat.log 2 ⌊v⌋₊ + 1 + 1)
      simp only [skBucketizer.bucketIndexToMin, Nat.add_sub_cancel]
      rw [if_neg (by omega)]
      have h2 := Nat.lt_pow_succ_log_self (b := 2) one_lt_two ⌊v⌋₊
      have h3 : v < ((2 ^ (Nat.log 2 ⌊v⌋₊ + 1) : ℕ) : ℚ) :=
        (Nat.floor_lt hv).mp h2
      calc v < ((2 ^ (Nat.log 2 ⌊v⌋₊ + 1) : ℕ) : ℚ) := h3
      _ = (2 : ℚ) ^ (Nat.log 2 ⌊v⌋₊ + 1) := by push_cast; ring

lemma p2_min_lt_succ (i : ℕ) :
    skBucketizer.p2.bucketMin i < skBucketizer.p2.bucketMin (i + 1) := by
  cases i with
  | zero =>
    simp [skBucketizer.bucketMin, skBucketizer.bucketIndexToMin]
  | succ j =>
    simp only [skBucketizer.bucketMin, skBucketizer.bucketIndexToMin,
      Nat.add_sub_cancel]
    rw [if_neg (by omega), if_neg (by omega)]
    have : (1 : ℚ) < 2 := one_lt_two
    exact pow_lt_pow_right₀ this (by omega)

/-! Linear bucketizer characterization. -/

lemma linear_valueToBucketIndex_eq {step v : ℚ} :
    (skBucketizer.linear step).valueToBucketIndex v = ⌊v / step⌋₊ := by
  simp [skBucketizer.valueToBucketIndex, Int.floor_toNat]

lemma linear_roundtrip {step : ℚ} (hs : 0 < step) (i : ℕ) :
    (skBucketizer.linear step).valueToBucketIndex
      ((skBucketizer.linear step).bucketIndexToMin i) = i := by
  rw [linear_valueToBucketIndex_eq]
  simp only [skBucketizer.bucketIndexToMin]
  rw [mul_div_cancel_left₀ _ (ne_of_gt hs), Nat.floor_natCast]

lemma linear_containment {step v : ℚ} (hs : 0 < step) (hv : 0 ≤ v) :
    (skBucketizer.linear step).bucketMin
        ((skBucketizer.linear step).valueToBucketIndex v) ≤ v ∧
      v < (skBucketizer.linear step).bucketMin
        ((skBucketizer.linear step).valueToBucketIndex v + 1) := by
  rw [linear_valueToBucketIndex_eq]
  have hdnn : 0 ≤ v / step := div_nonneg hv hs.le
  constructor
  · show step * (⌊v / step⌋₊ : ℚ) ≤ v
    have h1 : (⌊v / step⌋₊ : ℚ) ≤ v / step := Nat.floor_le hdnn
    calc step * (⌊v / step⌋₊ : ℚ) ≤ step * (v / step) := by
          exact mul_le_mul_of_nonneg_left h1 hs.le
    _ = v := by field_simp
  · show v < step * ((⌊v / step⌋₊ + 1 : ℕ) : ℚ)
    have h1 : v / step < (⌊v / step⌋₊ : ℚ) + 1 := Nat.lt_floor_add_one _
    have := (div_lt_iff₀ hs).mp h1
    push_cast
    linarith

lemma linear_min_lt_succ {step : ℚ} (hs : 0 < step) (i : ℕ) :
    (skBucketizer.linear step).bucketMin i <
      (skBucketizer.linear step).bucketMin (i + 1) := by
  simp only [skBucketizer.bucketMin, skBucketizer.bucketIndexToMin]
  push_cast
  nlinarith

/-! Log-linear bucketizer: constructor analysis. -/

lemma llFirstPowLoop_spec {base : ℕ} (hb : 2 ≤ base) :
    ∀ fuel m nb, 1 ≤ m → nb ≤ m * base ^ fuel →
      nb ≤ llFirstPowLoop base fuel nb m ∧
        ∃ j, llFirstPowLoop base fuel nb m = m * base ^ j ∧
          ∀ i, i < j → m * base ^ i < nb := by
  intro fuel
  induction fuel with
  | zero =>
    intro m nb hm hle
    simp only [llFirstPowLoop]
    refine ⟨by simpa using hle, 0, by simp, by omega⟩
  | succ f ih =>
    intro m nb hm hle
    simp only [llFirstPowLoop]
    by_cases hcase : m < nb
    · rw [if_pos hcase]
      have hle2 : nb ≤ m * base * base ^ f := by
        rw [mul_assoc, ← pow_succ']
        exact hle
      obtain ⟨h1, j, h2, h3⟩ := ih (m * base) nb (Nat.mul_pos hm (by omega)) hle2
      refine ⟨h1, j + 1, ?_, ?_⟩
      · rw [h2, mul_assoc, ← pow_succ']
      · intro i hi
        cases i with
        | zero => simpa using hcase
        | succ i' =>
          have := h3 i' (by omega)
          calc m * base ^ (i' + 1) = m * base * base ^ i' := by ring
          _ < nb := this
    · rw [if_neg hcase]
      refine ⟨by omega, 0, by simp, by omega⟩

lemma llConstructs_fuel_enough {base nb : ℕ} (hb : 2 ≤ base) :
    nb ≤ base * base ^ nb := by
  have h1 : nb < 2 ^ nb := Nat.lt_two_pow nb
  have h2 : (2 : ℕ) ^ nb ≤ base ^ nb := Nat.pow_le_pow_left hb nb
  have h3 : base ^ nb ≤ base * base ^ nb := Nat.le_mul_of_pos_left _ (by omega)
  omega

/-- The constructor succeeds exactly when `base` divides `nbuckets` and
`nbuckets` divides every power of `base` that is at least `nbuckets`
(equivalently, the first such power). -/
lemma llConstructs_iff {base nb : ℕ} (hb : 2 ≤ base) :
    llConstructs base nb = true ↔
      nb % base = 0 ∧ ∀ k, nb ≤ base ^ k → nb ∣ base ^ k := by
  obtain ⟨hP1, j, hP2, hP3⟩ :=
    llFirstPowLoop_spec hb nb base nb (by omega) (llConstructs_fuel_enough hb)
  have hPpos : 0 < llFirstPowLoop base nb nb base := by
    rw [hP2]
    have hb0 : 0 < base := by omega
    positivity
  constructor
  · intro h
    simp only [llConstructs, Bool.and_eq_true, beq_iff_eq] at h
    obtain ⟨hmod, hPmod⟩ := h
    have hnb0 : nb ≠ 0 := by
      intro h0
      subst h0
      rw [Nat.mod_zero] at hPmod
      have hb0 : 0 < base := by omega
      have hpos2 : 0 < base * base ^ j := by positivity
      omega
    refine ⟨hmod, fun k hk => ?_⟩
    have hdvdP : nb ∣ base * base ^ j := by
      rw [← hP2]
      exact Nat.dvd_of_mod_eq_zero hPmod
    cases k with
    | zero =>
      simp only [pow_zero] at hk ⊢
      have : nb = 1 := by omega
      simp [this]
    | succ k' =>
      by_cases hkj : j ≤ k'
      · have hsum : j + (k' - j) = k' := by omega
        have : base ^ (k' + 1) = (base * base ^ j) * base ^ (k' - j) := by
          rw [mul_assoc, ← pow_add, hsum]
          exact pow_succ' base k'
        rw [this]
        exact hdvdP.mul_right _
      · exfalso
        have h3 := hP3 k' (by omega)
        have h2 : base * base ^ k' = base ^ (k' + 1) := (pow_succ' base k').symm
        omega
  · intro ⟨hmod, hdvd⟩
    simp only [llConstructs, Bool.and_eq_true, beq_iff_eq]
    refine ⟨hmod, ?_⟩
    have hk : nb ≤ base ^ (j + 1) := by
      have h2 : base ^ (j + 1) = base * base ^ j := pow_succ' base j
      omega
    have hdv := hdvd (j + 1) hk
    rw [pow_succ' base j] at hdv
    rw [hP2]
    exact Nat.mod_eq_zero_of_dvd hdv

/-! Log-linear bucketizer: per-magnitude arithmetic for valid configurations. -/

lemma llValid_nb_pos {base nb : ℕ} (hb : 2 ≤ base) (hc : llConstructs base nb = true) :
    1 ≤ nb := by
  rcases Nat.eq_zero_or_pos nb with h0 | h1
  · exfalso
    obtain ⟨_, hdvd⟩ := (llConstructs_iff hb).mp hc
    subst h0
    have := hdvd 1 (by omega)
    simp at this
    omega
  · exact h1

lemma llValid_base_dvd_nb {base nb : ℕ} (hb : 2 ≤ base)
    (hc : llConstructs base nb = true) : base ∣ nb :=
  Nat.dvd_of_mod_eq_zero ((llConstructs_iff hb).mp hc).1

lemma llValid_base_le_nb {base nb : ℕ} (hb : 2 ≤ base)
    (hc : llConstructs base nb = true) : base ≤ nb :=
  Nat.le_of_dvd (llValid_nb_pos hb hc) (llValid_base_dvd_nb hb hc)

lemma llOB_pos {base nb : ℕ} (hb : 2 ≤ base) (hc : llConstructs base nb = true)
    (e : ℕ) : 0 < llOB base nb e := by
  have h1 : 0 < base ^ (e + 1) := by positivity
  have h2 := llValid_nb_pos hb hc
  exact lt_min h1 (by omega)

lemma llOB_le_pow (base nb e : ℕ) : llOB base nb e ≤ base ^ (e + 1) :=
  min_le_left _ _

lemma llOB_ge_base {base nb : ℕ} (hb : 2 ≤ base) (hc : llConstructs base nb = true)
    (e : ℕ) : base ≤ llOB base nb e := by
  have h1 : base ≤ base ^ (e + 1) := by
    calc base = base ^ 1 := (pow_one base).symm
    _ ≤ base ^ (e + 1) := Nat.pow_le_pow_right (by omega) (by omega)
  exact le_min h1 (llValid_base_le_nb hb hc)

lemma llOB_dvd_pow {base nb : ℕ} (hb : 2 ≤ base) (hc : llConstructs base nb = true)
    (e : ℕ) : llOB base nb e ∣ base ^ (e + 1) := by
  unfold llOB
  rcases le_total (base ^ (e + 1)) nb with h | h
  · rw [min_eq_left h]
  · rw [min_eq_right h]
    exact ((llConstructs_iff hb).mp hc).2 (e + 1) h

lemma base_dvd_llOB {base nb : ℕ} (hb : 2 ≤ base) (hc : llConstructs base nb = true)
    (e : ℕ) : base ∣ llOB base nb e := by
  unfold llOB
  rcases le_total (base ^ (e + 1)) nb with h | h
  · rw [min_eq_left h]
    exact dvd_pow_self base (by omega)
  · rw [min_eq_right h]
    exact llValid_base_dvd_nb hb hc

lemma llStep_mul_llOB {base nb : ℕ} (hb : 2 ≤ base) (hc : llConstructs base nb = true)
    (e : ℕ) : llStep base nb e * llOB base nb e = base ^ (e + 1) :=
  Nat.div_mul_cancel (llOB_dvd_pow hb hc e)

lemma llStep_pos {base nb : ℕ} (hb : 2 ≤ base) (hc : llConstructs base nb = true)
    (e : ℕ) : 1 ≤ llStep base nb e := by
  unfold llStep
  rw [Nat.one_le_div_iff (llOB_pos hb hc e)]
  exact llOB_le_pow base nb e

lemma llOB_zero {base nb : ℕ} (hb : 2 ≤ base) (hc : llConstructs base nb = true) :
    llOB base nb 0 = base := by
  unfold llOB
  rw [pow_one]
  exact min_eq_left (llValid_base_le_nb hb hc)

lemma llUniq_pos {base nb : ℕ} (hb : 2 ≤ base) (hc : llConstructs base nb = true)
    (e : ℕ) : 1 ≤ llUniq base nb e := by
  cases e with
  | zero =>
    show 1 ≤ llOB base nb 0
    rw [llOB_zero hb hc]
    omega
  | succ e' =>
    show 1 ≤ llOB base nb (e' + 1) - llOB base nb (e' + 1) / base
    have h1 := llOB_ge_base hb hc (e' + 1)
    have h2 : llOB base nb (e' + 1) / base < llOB base nb (e' + 1) :=
      Nat.div_lt_self (by omega) (by omega)
    omega

lemma llUniq_mul_llStep {base nb : ℕ} (hb : 2 ≤ base)
    (hc : llConstructs base nb = true) (e : ℕ) :
    llUniq base nb e * llStep base nb e = base ^ (e + 1) - llPrev base e := by
  cases e with
  | zero =>
    show llOB base nb 0 * llStep base nb 0 = base ^ 1 - 0
    rw [mul_comm, llStep_mul_llOB hb hc 0]
    rfl
  | succ e' =>
    show (llOB base nb (e' + 1) - llOB base nb (e' + 1) / base) *
        llStep base nb (e' + 1) = base ^ (e' + 2) - base ^ (e' + 1)
    set ob := llOB base nb (e' + 1) with hob
    set S := llStep base nb (e' + 1) with hS
    have hobS : S * ob = base ^ (e' + 2) := llStep_mul_llOB hb hc (e' + 1)
    have hdvd : base ∣ ob := base_dvd_llOB hb hc (e' + 1)
    have hx : ob / base * base = ob := Nat.div_mul_cancel hdvd
    have hxS : ob / base * S * base = base ^ (e' + 1) * base := by
      calc ob / base * S * base = ob / base * base * S := by ring
      _ = ob * S := by rw [hx]
      _ = base ^ (e' + 2) := by rw [mul_comm]; exact hobS
      _ = base ^ (e' + 1) * base := by rw [← pow_succ]
    have hxS2 : ob / base * S = base ^ (e' + 1) :=
      Nat.eq_of_mul_eq_mul_right (by omega) hxS
    rw [Nat.sub_mul, hxS2, mul_comm ob S, hobS]

lemma llPrev_add_uniq_mul {base nb : ℕ} (hb : 2 ≤ base)
    (hc : llConstructs base nb = true) (e : ℕ) :
    llPrev base e + llUniq base nb e * llStep base nb e = base ^ (e + 1) := by
  rw [llUniq_mul_llStep hb hc e]
  have h1 : llPrev base e ≤ base ^ (e + 1) := by
    cases e with
    | zero => simp [llPrev]
    | succ e' =>
      show base ^ (e' + 1) ≤ base ^ (e' + 2)
      exact Nat.pow_le_pow_right (by omega) (by omega)
  omega

lemma llPrev_lt_pow {base : ℕ} (hb : 2 ≤ base) (e : ℕ) :
    llPrev base e < base ^ (e + 1) := by
  cases e with
  | zero =>
    show 0 < base ^ 1
    positivity
  | succ e' =>
    show base ^ (e' + 1) < base ^ (e' + 2)
    exact Nat.pow_lt_pow_right (by omega) (by omega)

lemma llPrev_eq_zero_iff {base : ℕ} (hb : 2 ≤ base) (e : ℕ) :
    llPrev base e = 0 ↔ e = 0 := by
  cases e with
  | zero => simp [llPrev]
  | succ e' =>
    show base ^ (e' + 1) = 0 ↔ _
    have h1 : 0 < base ^ (e' + 1) := by positivity
    omega

lemma llCum_mono {base nb : ℕ} : Monotone (llCum base nb) := by
  apply monotone_nat_of_le_succ
  intro e
  show llCum base nb e ≤ llCum base nb e + llUniq base nb e
  omega

lemma llCum_ge {base nb : ℕ} (hb : 2 ≤ base) (hc : llConstructs base nb = true) :
    ∀ e, e ≤ llCum base nb e := by
  intro e
  induction e with
  | zero => simp [llCum]
  | succ e' ih =>
    have := llUniq_pos hb hc e'
    show e' + 1 ≤ llCum base nb e' + llUniq base nb e'
    omega

lemma llCum_eq_zero_iff {base nb : ℕ} (hb : 2 ≤ base)
    (hc : llConstructs base nb = true) (e : ℕ) : llCum base nb e = 0 ↔ e = 0 := by
  cases e with
  | zero => simp [llCum]
  | succ e' =>
    have h1 := llUniq_pos hb hc e'
    show llCum base nb e' + llUniq base nb e' = 0 ↔ _
    omega

/-! Log-linear bucketizer: loop characterizations. -/

lemma llIndexLoop_stop (nb : ℕ) {base : ℕ} {v : ℚ} {e : ℕ}
    (h : v < ((base ^ (e + 1) : ℕ) : ℚ)) (fuel : ℕ) :
    llIndexLoop base nb v fuel (llCum base nb e) (llPrev base e) (base ^ (e + 1)) =
      (llCum base nb e, llPrev base e, base ^ (e + 1)) := by
  cases fuel with
  | zero => rfl
  | succ f =>
    simp only [llIndexLoop]
    rw [if_neg (not_le.mpr h)]

lemma llIndexLoop_step {base nb : ℕ} {v : ℚ} {e : ℕ} (hb : 2 ≤ base)
    (h : ((base ^ (e + 1) : ℕ) : ℚ) ≤ v) (fuel : ℕ) :
    llIndexLoop base nb v (fuel + 1) (llCum base nb e) (llPrev base e)
        (base ^ (e + 1)) =
      llIndexLoop base nb v fuel (llCum base nb (e + 1)) (llPrev base (e + 1))
        (base ^ (e + 2)) := by
  simp only [llIndexLoop]
  rw [if_pos h]
  have huniq :
      (if llPrev base e = 0 then min (base ^ (e + 1)) nb
        else min (base ^ (e + 1)) nb - min (base ^ (e + 1)) nb / base) =
      llUniq base nb e := by
    cases e with
    | zero => simp [llPrev, llUniq, llOB]
    | succ e' =>
      rw [if_neg (by
        intro hcd
        exact absurd ((llPrev_eq_zero_iff hb (e' + 1)).mp hcd) (by omega))]
      rfl
  rw [huniq]
  have hmax : base ^ (e + 1) * base = base ^ (e + 2) := (pow_succ base (e + 1)).symm
  rw [hmax]
  rfl

lemma llIndexLoop_run (nb : ℕ) {base : ℕ} {v : ℚ} (hb : 2 ≤ base) :
    ∀ e fuel, e ≤ fuel → (∀ j, j < e → ((base ^ (j + 1) : ℕ) : ℚ) ≤ v) →
      llIndexLoop base nb v fuel 0 0 base =
        llIndexLoop base nb v (fuel - e) (llCum base nb e) (llPrev base e)
          (base ^ (e + 1)) := by
  intro e
  induction e with
  | zero =>
    intro fuel _ _
    show llIndexLoop base nb v fuel 0 0 base =
      llIndexLoop base nb v (fuel - 0) (llCum base nb 0) (llPrev base 0) (base ^ 1)
    rw [Nat.sub_zero, pow_one]
    rfl
  | succ k ih =>
    intro fuel hle hall
    rw [ih fuel (by omega) (fun j hj => hall j (by omega))]
    have h2 : fuel - k = (fuel - (k + 1)) + 1 := by omega
    rw [h2, llIndexLoop_step hb (hall k (by omega)) (fuel - (k + 1))]

lemma llMinLoop_stop {base nb bidx : ℕ} {e : ℕ} (hb : 2 ≤ base)
    (hc : llConstructs base nb = true) (h : bidx < llCum base nb (e + 1)) (fuel : ℕ) :
    llMinLoop base nb bidx fuel (llCum base nb e) (llPrev base e) (base ^ (e + 1)) =
      (llCum base nb e, llPrev base e, base ^ (e + 1)) := by
  cases fuel with
  | zero => rfl
  | succ f =>
    simp only [llMinLoop]
    have huniq :
        (if llCum base nb e = 0 then min (base ^ (e + 1)) nb
          else min (base ^ (e + 1)) nb - min (base ^ (e + 1)) nb / base) =
        llUniq base nb e := by
      cases e with
      | zero => simp [llCum, llUniq, llOB]
      | succ e' =>
        rw [if_neg (by
          intro hzero
          exact absurd ((llCum_eq_zero_iff hb hc (e' + 1)).mp hzero) (by omega))]
        rfl
    have hcum : llCum base nb e + llUniq base nb e = llCum base nb (e + 1) := rfl
    rw [huniq, hcum, if_pos h]

lemma llMinLoop_step {base nb bidx : ℕ} {e : ℕ} (hb : 2 ≤ base)
    (hc : llConstructs base nb = true) (h : llCum base nb (e + 1) ≤ bidx) (fuel : ℕ) :
    llMinLoop base nb bidx (fuel + 1) (llCum base nb e) (llPrev base e)
        (base ^ (e + 1)) =
      llMinLoop base nb bidx fuel (llCum base nb (e + 1)) (llPrev base (e + 1))
        (base ^ (e + 2)) := by
  simp only [llMinLoop]
  have huniq :
      (if llCum base nb e = 0 then min (base ^ (e + 1)) nb
        else min (base ^ (e + 1)) nb - min (base ^ (e + 1)) nb / base) =
      llUniq base nb e := by
    cases e with
    | zero => simp [llCum, llUniq, llOB]
    | succ e' =>
      rw [if_neg (by
        intro hzero
        exact absurd ((llCum_eq_zero_iff hb hc (e' + 1)).mp hzero) (by omega))]
      rfl
  have hcum : llCum base nb e + llUniq base nb e = llCum base nb (e + 1) := rfl
  rw [huniq, hcum, if_neg (not_lt.mpr h)]
  have hmax : base ^ (e + 1) * base = base ^ (e + 2) := (pow_succ base (e + 1)).symm
  rw [hmax]
  rfl

lemma llMinLoop_run (bidx : ℕ) {base nb : ℕ} (hb : 2 ≤ base)
    (hc : llConstructs base nb = true) :
    ∀ e fuel, e ≤ fuel → (∀ j, j < e → llCum base nb (j + 1) ≤ bidx) →
      llMinLoop base nb bidx fuel 0 0 base =
        llMinLoop base nb bidx (fuel - e) (llCum base nb e) (llPrev base e)
          (base ^ (e + 1)) := by
  intro e
  induction e with
  | zero =>
    intro fuel _ _
    show llMinLoop base nb bidx fuel 0 0 base =
      llMinLoop base nb bidx (fuel - 0) (llCum base nb 0) (llPrev base 0) (base ^ 1)
    rw [Nat.sub_zero, pow_one]
    rfl
  | succ k ih =>
    intro fuel hle hall
    rw [ih fuel (by omega) (fun j hj => hall j (by omega))]
    have h2 : fuel - k = (fuel - (k + 1)) + 1 := by omega
    rw [h2, llMinLoop_step hb hc (hall k (by omega)) (fuel - (k + 1))]

lemma llCum_sandwich_exists {base nb : ℕ} (hb : 2 ≤ base)
    (hc : llConstructs base nb = true) (bidx : ℕ) :
    ∃ e, llCum base nb e ≤ bidx ∧ bidx < llCum base nb (e + 1) ∧ e ≤ bidx := by
  have hex : ∃ e, bidx < llCum base nb (e + 1) :=
    ⟨bidx, by have := llCum_ge hb hc (bidx + 1); omega⟩
  have hspec : bidx < llCum base nb (Nat.find hex + 1) := Nat.find_spec hex
  have hlo : llCum base nb (Nat.find hex) ≤ bidx := by
    rcases Nat.eq_zero_or_pos (Nat.find hex) with h0 | h1
    · rw [h0]
      show llCum base nb 0 ≤ bidx
      simp [llCum]
    · have hm := Nat.find_min hex (m := Nat.find hex - 1) (by omega)
      have heq : Nat.find hex - 1 + 1 = Nat.find hex := by omega
      rw [heq] at hm
      omega
  exact ⟨Nat.find hex, hlo, hspec, le_trans (llCum_ge hb hc (Nat.find hex)) hlo⟩

/-! Log-linear bucketizer: closed forms, round trip and containment. -/

lemma loglinear_vtbi_unfold (base nb : ℕ) (v : ℚ) :
    (skBucketizer.loglinear base nb).valueToBucketIndex v =
      (((llIndexLoop base nb v (⌊v⌋₊ + 1) 0 0 base).1 : ℤ) +
        ⌊(v - ((llIndexLoop base nb v (⌊v⌋₊ + 1) 0 0 base).2.1 : ℚ)) /
          (((llIndexLoop base nb v (⌊v⌋₊ + 1) 0 0 base).2.2 : ℚ) /
            ((min (llIndexLoop base nb v (⌊v⌋₊ + 1) 0 0 base).2.2 nb : ℕ) : ℚ))⌋).toNat :=
  rfl

lemma loglinear_bitm_unfold (base nb bidx : ℕ) :
    (skBucketizer.loglinear base nb).bucketIndexToMin bidx =
      ((llMinLoop base nb bidx (bidx + 1) 0 0 base).2.1 : ℚ) +
        ((⌊((bidx - (llMinLoop base nb bidx (bidx + 1) 0 0 base).1 : ℕ) : ℚ) *
          (((llMinLoop base nb bidx (bidx + 1) 0 0 base).2.2 : ℚ) /
            ((min (llMinLoop base nb bidx (bidx + 1) 0 0 base).2.2 nb : ℕ) : ℚ))⌋ : ℤ) : ℚ) :=
  rfl

lemma llStep_cast_eq {base nb : ℕ} (hb : 2 ≤ base) (hc : llConstructs base nb = true)
    (e : ℕ) :
    ((base ^ (e + 1) : ℕ) : ℚ) / ((llOB base nb e : ℕ) : ℚ) =
      ((llStep base nb e : ℕ) : ℚ) := by
  have h3 := llStep_mul_llOB hb hc e
  have hpos : ((llOB base nb e : ℕ) : ℚ) ≠ 0 := by
    have := llOB_pos hb hc e
    positivity
  rw [← h3]
  push_cast
  rw [mul_div_assoc, div_self hpos, mul_one]

lemma llPrev_cast_le (base : ℕ) {v : ℚ} (hv : 0 ≤ v) :
    ((llPrev base (Nat.log base ⌊v⌋₊) : ℕ) : ℚ) ≤ v := by
  rcases h : Nat.log base ⌊v⌋₊ with _ | e'
  · show ((0 : ℕ) : ℚ) ≤ v
    simpa using hv
  · show ((base ^ (e' + 1) : ℕ) : ℚ) ≤ v
    have hne : ⌊v⌋₊ ≠ 0 := by
      intro h0
      rw [h0, Nat.log_zero_right] at h
      exact absurd h (by omega)
    have h1 : base ^ (e' + 1) ≤ ⌊v⌋₊ := by
      rw [← h]
      exact Nat.pow_log_le_self base hne
    calc ((base ^ (e' + 1) : ℕ) : ℚ) ≤ (⌊v⌋₊ : ℚ) := by exact_mod_cast h1
    _ ≤ v := Nat.floor_le hv

lemma llPow_cast_gt {base : ℕ} (hb : 2 ≤ base) {v : ℚ} (hv : 0 ≤ v) :
    v < ((base ^ (Nat.log base ⌊v⌋₊ + 1) : ℕ) : ℚ) := by
  have := Nat.lt_pow_succ_log_self (b := base) (by omega) ⌊v⌋₊
  exact (Nat.floor_lt hv).mp this

lemma loglinear_valueToBucketIndex_eq {base nb : ℕ} (hb : 2 ≤ base)
    (hc : llConstructs base nb = true) {v : ℚ} (hv : 0 ≤ v) :
    (skBucketizer.loglinear base nb).valueToBucketIndex v =
      llCum base nb (Nat.log base ⌊v⌋₊) +
        ⌊(v - ((llPrev base (Nat.log base ⌊v⌋₊) : ℕ) : ℚ)) /
          ((llStep base nb (Nat.log base ⌊v⌋₊) : ℕ) : ℚ)⌋₊ := by
  set E := Nat.log base ⌊v⌋₊ with hE
  have hallj : ∀ j, j < E → ((base ^ (j + 1) : ℕ) : ℚ) ≤ v := by
    intro j hj
    have hne : ⌊v⌋₊ ≠ 0 := by
      intro h0
      rw [hE, h0, Nat.log_zero_right] at hj
      omega
    have h1 : base ^ (j + 1) ≤ base ^ E := Nat.pow_le_pow_right (by omega) (by omega)
    have h2 : base ^ E ≤ ⌊v⌋₊ := Nat.pow_log_le_self base hne
    calc ((base ^ (j + 1) : ℕ) : ℚ) ≤ ((⌊v⌋₊ : ℕ) : ℚ) := by exact_mod_cast le_trans h1 h2
    _ ≤ v := Nat.floor_le hv
  have hvlt : v < ((base ^ (E + 1) : ℕ) : ℚ) := llPow_cast_gt hb hv
  have hrun := llIndexLoop_run (v := v) nb hb E (⌊v⌋₊ + 1)
    (by have := Nat.log_le_self base ⌊v⌋₊; omega) hallj
  have hstop := llIndexLoop_stop nb hvlt ((⌊v⌋₊ + 1) - E)
  rw [loglinear_vtbi_unfold, hrun, hstop]
  have hOB : min (base ^ (E + 1)) nb = llOB base nb E := rfl
  simp only [hOB]
  rw [llStep_cast_eq hb hc E]
  have hxnn : 0 ≤ (v - ((llPrev base E : ℕ) : ℚ)) / ((llStep base nb E : ℕ) : ℚ) := by
    apply div_nonneg
    · have := llPrev_cast_le base hv
      rw [← hE] at this
      linarith
    · have := llStep_pos hb hc E
      positivity
  rw [Int.toNat_add (by positivity) (Int.floor_nonneg.mpr hxnn)]
  rw [Int.floor_toNat, Int.toNat_natCast]

lemma loglinear_bucketIndexToMin_eq {base nb : ℕ} (hb : 2 ≤ base)
    (hc : llConstructs base nb = true) {bidx e : ℕ}
    (hlo : llCum base nb e ≤ bidx) (hhi : bidx < llCum base nb (e + 1)) :
    (skBucketizer.loglinear base nb).bucketIndexToMin bidx =
      ((llPrev base e + (bidx - llCum base nb e) * llStep base nb e : ℕ) : ℚ) := by
  have hebd : e ≤ bidx := le_trans (llCum_ge hb hc e) hlo
  have hrun := llMinLoop_run bidx hb hc e (bidx + 1) (by omega)
    (fun j hj => le_trans (llCum_mono (by omega : j + 1 ≤ e)) hlo)
  have hstop := llMinLoop_stop hb hc hhi ((bidx + 1) - e)
  rw [loglinear_bitm_unfold, hrun, hstop]
  have hOB : min (base ^ (e + 1)) nb = llOB base nb e := rfl
  simp only [hOB]
  rw [llStep_cast_eq hb hc e]
  have hcast : ((bidx - llCum base nb e : ℕ) : ℚ) * ((llStep base nb e : ℕ) : ℚ) =
      (((bidx - llCum base nb e) * llStep base nb e : ℕ) : ℚ) := by push_cast; ring
  rw [hcast, Int.floor_natCast]
  push_cast
  ring

lemma loglinear_roundtrip {base nb : ℕ} (hb : 2 ≤ base)
    (hc : llConstructs base nb = true) (bidx : ℕ) :
    (skBucketizer.loglinear base nb).valueToBucketIndex
      ((skBucketizer.loglinear base nb).bucketIndexToMin bidx) = bidx := by
  obtain ⟨e, hlo, hhi, _⟩ := llCum_sandwich_exists hb hc bidx
  have hcums : llCum base nb (e + 1) = llCum base nb e + llUniq base nb e := rfl
  have hkuniq : bidx - llCum base nb e < llUniq base nb e := by omega
  have hmin := loglinear_bucketIndexToMin_eq hb hc hlo hhi
  set k := bidx - llCum base nb e with hk
  set S := llStep base nb e with hS
  set m : ℕ := llPrev base e + k * S with hm
  have hSpos := llStep_pos hb hc e
  have hmlt : m < base ^ (e + 1) := by
    have h1 : (k + 1) * S ≤ llUniq base nb e * S :=
      Nat.mul_le_mul_right S (by omega)
    have h2 := llPrev_add_uniq_mul hb hc e
    have h4 : (k + 1) * S = k * S + S := by ring
    rw [← hS] at h2
    omega
  have hmge : llPrev base e ≤ m := Nat.le_add_right _ _
  have hlog : Nat.log base m = e := by
    cases e with
    | zero =>
      apply Nat.log_eq_zero_iff.mpr
      left
      have : m < base ^ (0 + 1) := hmlt
      rwa [pow_one] at this
    | succ e' =>
      apply Nat.log_eq_of_pow_le_of_lt_pow
      · exact hmge
      · exact hmlt
  rw [hmin, loglinear_valueToBucketIndex_eq hb hc (by positivity)]
  rw [Nat.floor_natCast, hlog]
  have hsub : ((m : ℕ) : ℚ) - ((llPrev base e : ℕ) : ℚ) = ((k * S : ℕ) : ℚ) := by
    rw [hm]
    push_cast
    ring
  rw [hsub]
  have hSne : ((S : ℕ) : ℚ) ≠ 0 := by positivity
  have hdiv : ((k * S : ℕ) : ℚ) / ((S : ℕ) : ℚ) = (k : ℚ) := by
    push_cast
    field_simp
  rw [hdiv, Nat.floor_natCast]
  omega

lemma loglinear_containment {base nb : ℕ} (hb : 2 ≤ base)
    (hc : llConstructs base nb = true) {v : ℚ} (hv : 0 ≤ v) :
    (skBucketizer.loglinear base nb).bucketMin
        ((skBucketizer.loglinear base nb).valueToBucketIndex v) ≤ v ∧
      v < (skBucketizer.loglinear base nb).bucketMin
        ((skBucketizer.loglinear base nb).valueToBucketIndex v + 1) := by
  have hidx := loglinear_valueToBucketIndex_eq hb hc hv
  set E := Nat.log base ⌊v⌋₊ with hE
  set S := llStep base nb E with hS
  have hSpos : (0 : ℚ) < ((S : ℕ) : ℚ) := by
    have := llStep_pos hb hc E
    positivity
  have hprevle : ((llPrev base E : ℕ) : ℚ) ≤ v := llPrev_cast_le base hv
  set x := (v - ((llPrev base E : ℕ) : ℚ)) / ((S : ℕ) : ℚ) with hx
  have hxnn : 0 ≤ x := div_nonneg (by linarith) hSpos.le
  set k := ⌊x⌋₊ with hk
  have hvlt : v < ((base ^ (E + 1) : ℕ) : ℚ) := llPow_cast_gt hb hv
  have hklt : k < llUniq base nb E := by
    have h2 := llPrev_add_uniq_mul hb hc E
    rw [← hS] at h2
    have hxlt : x < ((llUniq base nb E : ℕ) : ℚ) := by
      rw [hx, div_lt_iff₀ hSpos]
      have h3 : ((llPrev base E + llUniq base nb E * S : ℕ) : ℚ) =
          ((base ^ (E + 1) : ℕ) : ℚ) := by exact_mod_cast congrArg Nat.cast h2
      have h5 := hvlt
      push_cast at h3 h5 ⊢
      linarith
    exact (Nat.floor_lt hxnn).mpr hxlt
  have hcums : llCum base nb (E + 1) = llCum base nb E + llUniq base nb E := rfl
  simp only [skBucketizer.bucketMin]
  constructor
  · rw [hidx]
    rw [loglinear_bucketIndexToMin_eq hb hc (Nat.le_add_right _ _) (by omega)]
    have hsimp : llCum base nb E + k - llCum base nb E = k := by omega
    rw [hsimp]
    have h1 : (k : ℚ) ≤ x := Nat.floor_le hxnn
    rw [hx, le_div_iff₀ hSpos] at h1
    push_cast
    push_cast at h1 hprevle
    linarith
  · rw [hidx]
    by_cases hcase : llCum base nb E + k + 1 < llCum base nb (E + 1)
    · rw [loglinear_bucketIndexToMin_eq hb hc (by omega) hcase]
      have hsimp : llCum base nb E + k + 1 - llCum base nb E = k + 1 := by omega
      rw [hsimp]
      have h1 : x < (k : ℚ) + 1 := Nat.lt_floor_add_one x
      rw [hx, div_lt_iff₀ hSpos] at h1
      push_cast
      push_cast at h1 hprevle
      linarith
    · have h1 : llCum base nb (E + 1) ≤ llCum base nb E + k + 1 := by omega
      have h2 : llCum base nb E + k + 1 < llCum base nb (E + 2) := by
        have hup := llUniq_pos hb hc (E + 1)
        have hcums2 : llCum base nb (E + 2) =
          llCum base nb (E + 1) + llUniq base nb (E + 1) := rfl
        omega
      rw [loglinear_bucketIndexToMin_eq hb hc h1 h2]
      have hsimp : llCum base nb E + k + 1 - llCum base nb (E + 1) = 0 := by omega
      rw [hsimp]
      have hpe : llPrev base (E + 1) = base ^ (E + 1) := rfl
      rw [Nat.zero_mul, Nat.add_zero, hpe]
      exact hvlt

lemma loglinear_min_lt_succ {base nb : ℕ} (hb : 2 ≤ base)
    (hc : llConstructs base nb = true) (i : ℕ) :
    (skBucketizer.loglinear base nb).bucketMin i <
      (skBucketizer.loglinear base nb).bucketMin (i + 1) := by
  obtain ⟨e, hlo, hhi, _⟩ := llCum_sandwich_exists hb hc i
  have hcums : llCum base nb (e + 1) = llCum base nb e + llUniq base nb e := rfl
  have hSpos := llStep_pos hb hc e
  show (skBucketizer.loglinear base nb).bucketIndexToMin i <
    (skBucketizer.loglinear base nb).bucketIndexToMin (i + 1)
  rw [loglinear_bucketIndexToMin_eq hb hc hlo hhi]
  by_cases hcase : i + 1 < llCum base nb (e + 1)
  · rw [loglinear_bucketIndexToMin_eq hb hc (by omega) hcase]
    have h1 : i + 1 - llCum base nb e = (i - llCum base nb e) + 1 := by omega
    rw [h1]
    have h2 : llPrev base e + (i - llCum base nb e) * llStep base nb e <
        llPrev base e + ((i - llCum base nb e) + 1) * llStep base nb e := by
      have h3 : ((i - llCum base nb e) + 1) * llStep base nb e =
          (i - llCum base nb e) * llStep base nb e + llStep base nb e := by ring
      omega
    exact_mod_cast h2
  · have h1 : llCum base nb (e + 1) ≤ i + 1 := by omega
    have h2 : i + 1 < llCum base nb (e + 2) := by
      have hup := llUniq_pos hb hc (e + 1)
      have hcums2 : llCum base nb (e + 2) =
        llCum base nb (e + 1) + llUniq base nb (e + 1) := rfl
      omega
    rw [loglinear_bucketIndexToMin_eq hb hc h1 h2]
    have hsimp : i + 1 - llCum base nb (e + 1) = 0 := by omega
    rw [hsimp]
    have hpe : llPrev base (e + 1) = base ^ (e + 1) := rfl
    rw [Nat.zero_mul, Nat.add_zero, hpe]
    have hmlt : llPrev base e + (i - llCum base nb e) * llStep base nb e <
        base ^ (e + 1) := by
      have hk : i - llCum base nb e < llUniq base nb e := by omega
      have hm1 : ((i - llCum base nb e) + 1) * llStep base nb e ≤
          llUniq base nb e * llStep base nb e :=
        Nat.mul_le_mul_right _ (by omega)
      have hm2 := llPrev_add_uniq_mul hb hc e
      have hm4 : ((i - llCum base nb e) + 1) * llStep base nb e =
          (i - llCum base nb e) * llStep base nb e + llStep base nb e := by ring
      omega
    exact_mod_cast hmlt

/-- Claim C6: the log-linear bucketizer with base 10 and 20 buckets has
bucket minima 0, 9, 10, 95 and 100 at ordinals 0, 9, 10, 27 and 28 (the
first bucket of the next order of magnitude). -/
theorem loglinear_boundary_values :
    (skBucketizer.loglinear 10 20).bucketIndexToMin 0 = 0 ∧
      (skBucketizer.loglinear 10 20).bucketIndexToMin 9 = 9 ∧
      (skBucketizer.loglinear 10 20).bucketIndexToMin 10 = 10 ∧
      (skBucketizer.loglinear 10 20).bucketIndexToMin 27 = 95 ∧
      (skBucketizer.loglinear 10 20).bucketIndexToMin 28 = 100 := by
  have hb : (2 : ℕ) ≤ 10 := by omega
  have hc : llConstructs 10 20 = true := by decide
  refine ⟨?_, ?_, ?_, ?_, ?_⟩
  · rw [loglinear_bucketIndexToMin_eq hb hc (show llCum 10 20 0 ≤ 0 by decide)
      (show 0 < llCum 10 20 1 by decide)]
    have hval : llPrev 10 0 + (0 - llCum 10 20 0) * llStep 10 20 0 = 0 := by decide
    rw [hval]
    norm_num
  · rw [loglinear_bucketIndexToMin_eq hb hc (show llCum 10 20 0 ≤ 9 by decide)
      (show 9 < llCum 10 20 1 by decide)]
    have hval : llPrev 10 0 + (9 - llCum 10 20 0) * llStep 10 20 0 = 9 := by decide
    rw [hval]
    norm_num
  · rw [loglinear_bucketIndexToMin_eq hb hc (show llCum 10 20 1 ≤ 10 by decide)
      (show 10 < llCum 10 20 2 by decide)]
    have hval : llPrev 10 1 + (10 - llCum 10 20 1) * llStep 10 20 1 = 10 := by decide
    rw [hval]
    norm_num
  · rw [loglinear_bucketIndexToMin_eq hb hc (show llCum 10 20 1 ≤ 27 by decide)
      (show 27 < llCum 10 20 2 by decide)]
    have hval : llPrev 10 1 + (27 - llCum 10 20 1) * llStep 10 20 1 = 95 := by decide
    rw [hval]
    norm_num
  · rw [loglinear_bucketIndexToMin_eq hb hc (show llCum 10 20 2 ≤ 28 by decide)
      (show 28 < llCum 10 20 3 by decide)]
    have hval : llPrev 10 2 + (28 - llCum 10 20 2) * llStep 10 20 2 = 100 := by decide
    rw [hval]
    norm_num

/-! Properties shared by every valid bucketizer. -/

lemma valid_roundtrip {b : skBucketizer} (hv : b.Valid) (i : ℕ) :
    b.valueToBucketIndex (b.bucketIndexToMin i) = i := by
  cases b with
  | linear step => exact linear_roundtrip hv i
  | loglinear base nb => exact loglinear_roundtrip hv.1 hv.2 i
  | p2 => exact p2_roundtrip i

lemma valid_containment {b : skBucketizer} (hv : b.Valid) {v : ℚ} (h0 : 0 ≤ v)
    (hp : b = .p2 → v = 0 ∨ 1 ≤ v) :
    b.bucketMin (b.valueToBucketIndex v) ≤ v ∧
      v < b.bucketMin (b.valueToBucketIndex v + 1) := by
  cases b with
  | linear step => exact linear_containment hv h0
  | loglinear base nb => exact loglinear_containment hv.1 hv.2 h0
  | p2 => exact p2_containment h0 (hp rfl)

lemma valid_min_lt_succ {b : skBucketizer} (hv : b.Valid) (i : ℕ) :
    b.bucketMin i < b.bucketMin (i + 1) := by
  cases b with
  | linear step => exact linear_min_lt_succ hv i
  | loglinear base nb => exact loglinear_min_lt_succ hv.1 hv.2 i
  | p2 => exact p2_min_lt_succ i

lemma valid_min_strictMono {b : skBucketizer} (hv : b.Valid) :
    StrictMono (b.bucketMin) :=
  strictMono_nat_of_lt_succ (valid_min_lt_succ hv)

lemma valid_min_nonneg {b : skBucketizer} (hv : b.Valid) (i : ℕ) :
    0 ≤ b.bucketMin i := by
  cases b with
  | linear step =>
    show (0 : ℚ) ≤ step * i
    have : (0 : ℚ) < step := hv
    positivity
  | loglinear base nb =>
    obtain ⟨e, hlo, hhi, _⟩ := llCum_sandwich_exists hv.1 hv.2 i
    rw [skBucketizer.bucketMin, loglinear_bucketIndexToMin_eq hv.1 hv.2 hlo hhi]
    positivity
  | p2 =>
    show (0 : ℚ) ≤ if i = 0 then 0 else 2 ^ (i - 1)
    split <;> positivity

lemma idx_lt_iff {b : skBucketizer} (hv : b.Valid) {v : ℚ} (h0 : 0 ≤ v)
    (hp : b = .p2 → v = 0 ∨ 1 ≤ v) (o : ℕ) :
    b.valueToBucketIndex v < o ↔ v < b.bucketMin o := by
  obtain ⟨hc1, hc2⟩ := valid_containment hv h0 hp
  constructor
  · intro h
    have := (valid_min_strictMono hv).monotone (show b.valueToBucketIndex v + 1 ≤ o by omega)
    linarith
  · intro h
    by_contra hle
    have := (valid_min_strictMono hv).monotone (show o ≤ b.valueToBucketIndex v by omega)
    linarith

lemma lt_idx_iff {b : skBucketizer} (hv : b.Valid) {v : ℚ} (h0 : 0 ≤ v)
    (hp : b = .p2 → v = 0 ∨ 1 ≤ v) (o : ℕ) :
    o < b.valueToBucketIndex v ↔ b.bucketMin (o + 1) ≤ v := by
  obtain ⟨hc1, hc2⟩ := valid_containment hv h0 hp
  constructor
  · intro h
    have := (valid_min_strictMono hv).monotone (show o + 1 ≤ b.valueToBucketIndex v by omega)
    linarith
  · intro h
    by_contra hle
    have := (valid_min_strictMono hv).monotone
      (show b.valueToBucketIndex v + 1 ≤ o + 1 by omega)
    linarith

lemma mem_range_iff_idx {b : skBucketizer} (hv : b.Valid) {v : ℚ} (h0 : 0 ≤ v)
    (hp : b = .p2 → v = 0 ∨ 1 ≤ v) (o : ℕ) :
    (b.bucketMin o ≤ v ∧ v < b.bucketMin (o + 1)) ↔ b.valueToBucketIndex v = o := by
  constructor
  · intro ⟨hl, hr⟩
    by_contra hne
    rcases Nat.lt_or_ge (b.valueToBucketIndex v) o with hlt | hge
    · have := (idx_lt_iff hv h0 hp o).mp hlt
      linarith
    · have hgt : o < b.valueToBucketIndex v := by omega
      have := (lt_idx_iff hv h0 hp o).mp hgt
      linarith
  · intro h
    obtain ⟨hc1, hc2⟩ := valid_containment hv h0 hp
    rw [h] at hc1 hc2
    exact ⟨hc1, hc2⟩

/-! The distribution merge: `bucketize` as sorted insertion. -/

lemma bucketize_eq_insertOrd {b : skBucketizer} (hv : b.Valid) {v : ℚ} (h0 : 0 ≤ v)
    (hp : b = .p2 → v = 0 ∨ 1 ≤ v) :
    ∀ (d : List (ℕ × ℚ)) (c : ℚ),
      b.bucketize d v c = some (insertOrd d (b.valueToBucketIndex v) c) := by
  intro d
  induction d with
  | nil =>
    intro c
    obtain ⟨hc1, hc2⟩ := valid_containment hv h0 hp
    simp only [skBucketizer.bucketize, insertOrd]
    rw [if_pos ⟨hc1, hc2⟩]
  | cons hd tl ih =>
    intro c
    obtain ⟨o, n⟩ := hd
    by_cases heq : b.valueToBucketIndex v = o
    · have hin : b.bucketMin o ≤ v ∧ v < b.bucketMin (o + 1) :=
        (mem_range_iff_idx hv h0 hp o).mpr heq
      simp only [skBucketizer.bucketize, insertOrd]
      rw [if_pos hin, if_pos heq]
    · have hnotin : ¬(b.bucketMin o ≤ v ∧ v < b.bucketMin (o + 1)) := by
        intro hin
        exact heq ((mem_range_iff_idx hv h0 hp o).mp hin)
      rcases Nat.lt_or_ge (b.valueToBucketIndex v) o with hlt | hge
      · have hvlt : v < b.bucketMin o := (idx_lt_iff hv h0 hp o).mp hlt
        obtain ⟨hc1, hc2⟩ := valid_containment hv h0 hp
        simp only [skBucketizer.bucketize, insertOrd]
        rw [if_neg hnotin, if_pos hvlt, if_pos ⟨hc1, hc2⟩, if_neg heq,
          if_pos hlt]
      · have hgt : o < b.valueToBucketIndex v := by omega
        have hge2 : b.bucketMin (o + 1) ≤ v := (lt_idx_iff hv h0 hp o).mp hgt
        have hnlt : ¬(v < b.bucketMin o) := by
          have := (idx_lt_iff hv h0 hp o).mpr
          intro hcon
          exact absurd (this hcon) (by omega)
        simp only [skBucketizer.bucketize, insertOrd]
        rw [if_neg hnotin, if_neg hnlt, if_neg heq, if_neg (by omega : ¬ b.valueToBucketIndex v < o)]
        rw [ih c]
        rfl

lemma insertOrd_keys_mem :
    ∀ (l : List (ℕ × ℚ)) (k : ℕ) (c : ℚ) (x : ℕ),
      x ∈ (insertOrd l k c).map Prod.fst → x = k ∨ x ∈ l.map Prod.fst := by
  intro l k c
  induction l with
  | nil =>
    intro x hx
    simp [insertOrd] at hx
    exact Or.inl hx
  | cons hd tl ih =>
    obtain ⟨o, n⟩ := hd
    intro x hx
    simp only [insertOrd] at hx
    split_ifs at hx with h1 h2
    · simp at hx
      rcases hx with h | h
      · right; simp [h]
      · right; simp [h]
    · simp at hx
      rcases hx with h | h | h
      · exact Or.inl h
      · right; simp [h]
      · right; simp [h]
    · simp at hx
      rcases hx with h | h
      · right; simp [h]
      · rcases ih x (by simpa using h) with h' | h'
        · exact Or.inl h'
        · right; simp [h']

lemma insertOrd_sorted :
    ∀ (l : List (ℕ × ℚ)) (k : ℕ) (c : ℚ),
      (l.map Prod.fst).Pairwise (· < ·) →
        ((insertOrd l k c).map Prod.fst).Pairwise (· < ·) := by
  intro l k c
  induction l with
  | nil =>
    intro _
    simp [insertOrd]
  | cons hd tl ih =>
    obtain ⟨o, n⟩ := hd
    intro hs
    simp only [List.map_cons, List.pairwise_cons] at hs
    obtain ⟨ho, htl⟩ := hs
    simp only [insertOrd]
    split_ifs with h1 h2
    · simp only [List.map_cons, List.pairwise_cons]
      exact ⟨ho, htl⟩
    · simp only [List.map_cons, List.pairwise_cons]
      refine ⟨?_, ho, htl⟩
      intro x hx
      simp at hx
      rcases hx with h | h
      · omega
      · have := ho x (by simpa using h)
        omega
    · simp only [List.map_cons, List.pairwise_cons]
      refine ⟨?_, ih htl⟩
      intro x hx
      rcases insertOrd_keys_mem tl k c x hx with h | h
      · omega
      · exact ho x h

lemma lookup_cons_ite (o x : ℕ) (n : ℚ) (tl : List (ℕ × ℚ)) :
    List.lookup x ((o, n) :: tl) = if x = o then some n else List.lookup x tl := by
  show (match x == o with
    | true => some n
    | false => List.lookup x tl) = _
  by_cases h : x = o
  · rw [if_pos h]
    have hb : (x == o) = true := beq_iff_eq.mpr h
    rw [hb]
  · rw [if_neg h]
    have hb : (x == o) = false := beq_eq_false_iff_ne.mpr h
    rw [hb]

lemma lookup_eq_none_of_not_mem {l : List (ℕ × ℚ)} {k : ℕ}
    (h : k ∉ l.map Prod.fst) : l.lookup k = none := by
  induction l with
  | nil => rfl
  | cons hd tl ih =>
    obtain ⟨o, n⟩ := hd
    simp only [List.map_cons, List.mem_cons] at h
    push_neg at h
    rw [lookup_cons_ite, if_neg h.1]
    exact ih h.2

lemma lookup_insertOrd_ne :
    ∀ (l : List (ℕ × ℚ)) (k : ℕ) (c : ℚ) (x : ℕ), x ≠ k →
      (insertOrd l k c).lookup x = l.lookup x := by
  intro l k c
  induction l with
  | nil =>
    intro x hx
    show List.lookup x [(k, c)] = List.lookup x []
    rw [lookup_cons_ite, if_neg hx]
  | cons hd tl ih =>
    obtain ⟨o, n⟩ := hd
    intro x hx
    simp only [insertOrd]
    split_ifs with h1 h2
    · subst h1
      rw [lookup_cons_ite, lookup_cons_ite]
      rw [if_neg (by omega), if_neg (by omega)]
    · rw [lookup_cons_ite, if_neg hx]
    · rw [lookup_cons_ite, lookup_cons_ite]
      by_cases hxo : x = o
      · rw [if_pos hxo, if_pos hxo]
      · rw [if_neg hxo, if_neg hxo]
        exact ih x hx

lemma lookup_insertOrd_self :
    ∀ (l : List (ℕ × ℚ)) (k : ℕ) (c : ℚ),
      (l.map Prod.fst).Pairwise (· < ·) →
        (insertOrd l k c).lookup k = some ((l.lookup k).getD 0 + c) := by
  intro l k c
  induction l with
  | nil =>
    intro _
    show List.lookup k [(k, c)] = _
    rw [lookup_cons_ite, if_pos rfl]
    show _ = some ((List.lookup k ([] : List (ℕ × ℚ))).getD 0 + c)
    simp
  | cons hd tl ih =>
    obtain ⟨o, n⟩ := hd
    intro hs
    simp only [List.map_cons, List.pairwise_cons] at hs
    obtain ⟨ho, htl⟩ := hs
    simp only [insertOrd]
    split_ifs with h1 h2
    · subst h1
      rw [lookup_cons_ite, if_pos rfl, lookup_cons_ite, if_pos rfl]
      simp
    · rw [lookup_cons_ite, if_pos rfl, lookup_cons_ite, if_neg (by omega)]
      rw [lookup_eq_none_of_not_mem (by
        intro hmem
        have := ho k hmem
        omega)]
      simp
    · rw [lookup_cons_ite, lookup_cons_ite, if_neg (by omega), if_neg (by omega)]
      exact ih htl

lemma sorted_lookup_ext :
    ∀ (l1 l2 : List (ℕ × ℚ)),
      (l1.map Prod.fst).Pairwise (· < ·) → (l2.map Prod.fst).Pairwise (· < ·) →
        (∀ k, l1.lookup k = l2.lookup k) → l1 = l2 := by
  intro l1
  induction l1 with
  | nil =>
    intro l2 _ _ hext
    cases l2 with
    | nil => rfl
    | cons hd2 t2 =>
      obtain ⟨o2, n2⟩ := hd2
      exfalso
      have h1 := hext o2
      rw [lookup_cons_ite, if_pos rfl] at h1
      exact Option.noConfusion h1
  | cons hd1 t1 ih =>
    intro l2 hs1 hs2 hext
    obtain ⟨o1, n1⟩ := hd1
    cases l2 with
    | nil =>
      exfalso
      have h1 := hext o1
      rw [lookup_cons_ite, if_pos rfl] at h1
      exact Option.noConfusion h1
    | cons hd2 t2 =>
      obtain ⟨o2, n2⟩ := hd2
      simp only [List.map_cons, List.pairwise_cons] at hs1 hs2
      obtain ⟨ho1, ht1⟩ := hs1
      obtain ⟨ho2, ht2⟩ := hs2
      have hoo : o1 = o2 := by
        by_contra hne
        rcases Nat.lt_or_ge o1 o2 with h | h
        · have h1 := hext o1
          rw [lookup_cons_ite, if_pos rfl, lookup_cons_ite, if_neg (by omega)] at h1
          rw [lookup_eq_none_of_not_mem (by
            intro hmem
            have := ho2 o1 hmem
            omega)] at h1
          exact Option.noConfusion h1
        · have h1 := hext o2
          rw [lookup_cons_ite, if_neg (by omega), lookup_cons_ite, if_pos rfl] at h1
          rw [lookup_eq_none_of_not_mem (by
            intro hmem
            have := ho1 o2 hmem
            omega)] at h1
          exact Option.noConfusion h1.symm
      subst hoo
      have hnn : n1 = n2 := by
        have h1 := hext o1
        rw [lookup_cons_ite, if_pos rfl, lookup_cons_ite, if_pos rfl] at h1
        exact Option.some.inj h1
      subst hnn
      congr 1
      apply ih t2 ht1 ht2
      intro k
      by_cases hko : k = o1
      · subst hko
        rw [lookup_eq_none_of_not_mem (by
            intro hmem
            have := ho1 k hmem
            omega),
          lookup_eq_none_of_not_mem (by
            intro hmem
            have := ho2 k hmem
            omega)]
      · have h1 := hext k
        rw [lookup_cons_ite, if_neg hko, lookup_cons_ite, if_neg hko] at h1
        exact h1

lemma insertOrd_comm_sorted {l : List (ℕ × ℚ)}
    (hs : (l.map Prod.fst).Pairwise (· < ·)) (k1 k2 : ℕ) (c1 c2 : ℚ) :
    insertOrd (insertOrd l k1 c1) k2 c2 = insertOrd (insertOrd l k2 c2) k1 c1 := by
  apply sorted_lookup_ext
  · exact insertOrd_sorted _ _ _ (insertOrd_sorted _ _ _ hs)
  · exact insertOrd_sorted _ _ _ (insertOrd_sorted _ _ _ hs)
  intro k
  by_cases h2 : k = k2
  · subst h2
    by_cases h1 : k = k1
    · subst h1
      rw [lookup_insertOrd_self _ _ _ (insertOrd_sorted _ _ _ hs),
        lookup_insertOrd_self _ _ _ hs,
        lookup_insertOrd_self _ _ _ (insertOrd_sorted _ _ _ hs),
        lookup_insertOrd_self _ _ _ hs]
      congr 1
      simp only [Option.getD_some]
      ring
    · rw [lookup_insertOrd_self _ _ _ (insertOrd_sorted _ _ _ hs),
        lookup_insertOrd_ne _ _ _ _ h1,
        lookup_insertOrd_ne _ _ _ _ h1,
        lookup_insertOrd_self _ _ _ hs]
  · by_cases h1 : k = k1
    · subst h1
      rw [lookup_insertOrd_ne _ _ _ _ h2,
        lookup_insertOrd_self _ _ _ hs,
        lookup_insertOrd_self _ _ _ (insertOrd_sorted _ _ _ hs),
        lookup_insertOrd_ne _ _ _ _ h2]
    · rw [lookup_insertOrd_ne _ _ _ _ h2, lookup_insertOrd_ne _ _ _ _ h1,
        lookup_insertOrd_ne _ _ _ _ h1, lookup_insertOrd_ne _ _ _ _ h2]

lemma bucketizeAll_eq_foldl_insertOrd {b : skBucketizer} (hv : b.Valid) :
    ∀ (obs : List (ℚ × ℚ)),
      (∀ p ∈ obs, 0 ≤ p.1 ∧ (b = .p2 → p.1 = 0 ∨ 1 ≤ p.1)) →
      ∀ d : List (ℕ × ℚ),
        obs.foldl (fun od p => od.bind fun dd => b.bucketize dd p.1 p.2) (some d) =
          some (obs.foldl
            (fun dd p => insertOrd dd (b.valueToBucketIndex p.1) p.2) d) := by
  intro obs
  induction obs with
  | nil => intro _ d; rfl
  | cons p t ih =>
    intro hobs d
    obtain ⟨h0, hp⟩ := hobs p (List.mem_cons_self p t)
    simp only [List.foldl_cons]
    rw [show ((some d).bind fun dd => b.bucketize dd p.1 p.2) =
        b.bucketize d p.1 p.2 from rfl]
    rw [bucketize_eq_insertOrd hv h0 hp d p.2]
    exact ih (fun q hq => hobs q (List.mem_cons_of_mem p hq)) _

lemma foldl_insertOrd_perm {b : skBucketizer} (hv : b.Valid) :
    ∀ {l1 l2 : List (ℚ × ℚ)}, l1.Perm l2 →
      ∀ d : List (ℕ × ℚ), (d.map Prod.fst).Pairwise (· < ·) →
        l1.foldl (fun dd p => insertOrd dd (b.valueToBucketIndex p.1) p.2) d =
          l2.foldl (fun dd p => insertOrd dd (b.valueToBucketIndex p.1) p.2) d := by
  intro l1 l2 hperm
  induction hperm with
  | nil => intro d _; rfl
  | cons x p ih =>
    intro d hd
    simp only [List.foldl_cons]
    exact ih _ (insertOrd_sorted _ _ _ hd)
  | swap x y l =>
    intro d hd
    simp only [List.foldl_cons]
    rw [insertOrd_comm_sorted hd]
  | trans p1 p2 ih1 ih2 =>
    intro d hd
    exact (ih1 d hd).trans (ih2 d hd)

/-- Claim C1 (amended): for every valid bucketizer variant and every finite
list of `(value, cardinality)` observations with non-negative values —
excluding, for the power-of-two variant, values strictly between 0 and 1,
on which `bucketize` throws an assertion for one insertion order and merges
into bucket 0 for another — applying `bucketize` once per observation to an
initially empty distribution is insertion-order independent; in particular
forward and reverse iteration agree. -/
theorem bucketize_order_invariance (b : skBucketizer) (hv : b.Valid)
    (l1 l2 : List (ℚ × ℚ)) (hperm : l1.Perm l2)
    (h0 : ∀ p ∈ l1, 0 ≤ p.1)
    (hp : ∀ p ∈ l1, b = .p2 → p.1 = 0 ∨ 1 ≤ p.1) :
    bucketizeAll b l1 = bucketizeAll b l2 ∧
      bucketizeAll b l1.reverse = bucketizeAll b l1 := by
  have hob1 : ∀ p ∈ l1, 0 ≤ p.1 ∧ (b = .p2 → p.1 = 0 ∨ 1 ≤ p.1) :=
    fun p hq => ⟨h0 p hq, hp p hq⟩
  have hob2 : ∀ p ∈ l2, 0 ≤ p.1 ∧ (b = .p2 → p.1 = 0 ∨ 1 ≤ p.1) :=
    fun p hq => hob1 p (hperm.mem_iff.mpr hq)
  have hobr : ∀ p ∈ l1.reverse, 0 ≤ p.1 ∧ (b = .p2 → p.1 = 0 ∨ 1 ≤ p.1) :=
    fun p hq => hob1 p (List.mem_reverse.mp hq)
  have hnil : (([] : List (ℕ × ℚ)).map Prod.fst).Pairwise (· < ·) := by simp
  constructor
  · show List.foldl _ (some []) l1 = List.foldl _ (some []) l2
    rw [bucketizeAll_eq_foldl_insertOrd hv l1 hob1 [],
      bucketizeAll_eq_foldl_insertOrd hv l2 hob2 []]
    exact congrArg some (foldl_insertOrd_perm hv hperm [] hnil)
  · show List.foldl _ (some []) l1.reverse = List.foldl _ (some []) l1
    rw [bucketizeAll_eq_foldl_insertOrd hv l1.reverse hobr [],
      bucketizeAll_eq_foldl_insertOrd hv l1 hob1 []]
    exact congrArg some (foldl_insertOrd_perm hv (List.reverse_perm l1) [] hnil)

/-- Witness for C1: the power-of-two bucketizer merges `(0,1)` and `(4,2)`
to the same distribution in either order. -/
theorem bucketize_order_invariance_witness :
    bucketizeAll .p2 [((0 : ℚ), (1 : ℚ)), (4, 2)] =
      bucketizeAll .p2 [((4 : ℚ), (2 : ℚ)), (0, 1)] :=
  (bucketize_order_invariance .p2 trivial _ _
    (List.Perm.swap ((4 : ℚ), (2 : ℚ)) ((0 : ℚ), (1 : ℚ)) [])
    (by
      intro p hq
      simp at hq
      rcases hq with h | h <;> rw [h] <;> norm_num)
    (by
      intro p hq _
      simp at hq
      rcases hq with h | h
      · left; rw [h]
      · right; rw [h]; norm_num)).1

lemma p2_idx_half : skBucketizer.p2.valueToBucketIndex (1 / 2) = 1 := by
  show (if (1 / 2 : ℚ) = 0 then 0 else p2IndexLoop (1 / 2) ⌊(1 / 2 : ℚ)⌋₊ 1 1) = 1
  rw [if_neg (by norm_num), Nat.floor_eq_zero.mpr (by norm_num)]
  rfl

lemma p2_min_zero : skBucketizer.p2.bucketMin 0 = 0 := rfl

lemma p2_min_one : skBucketizer.p2.bucketMin 1 = 1 := by
  show (if (1 : ℕ) = 0 then (0 : ℚ) else 2 ^ (1 - 1)) = 1
  norm_num

lemma p2_bucketize_nil_half : skBucketizer.p2.bucketize [] (1 / 2) 1 = none := by
  show (if skBucketizer.p2.bucketMin (skBucketizer.p2.valueToBucketIndex (1 / 2)) ≤ 1 / 2 ∧
      (1 / 2 : ℚ) < skBucketizer.p2.bucketMin (skBucketizer.p2.valueToBucketIndex (1 / 2) + 1)
    then some [(skBucketizer.p2.valueToBucketIndex (1 / 2), 1)] else none) = none
  rw [p2_idx_half, if_neg]
  intro hcon
  rw [p2_min_one] at hcon
  exact absurd hcon.1 (by norm_num)

lemma p2_bucketize_nil_zero : skBucketizer.p2.bucketize [] 0 1 = some [(0, 1)] := by
  show (if skBucketizer.p2.bucketMin (skBucketizer.p2.valueToBucketIndex 0) ≤ 0 ∧
      (0 : ℚ) < skBucketizer.p2.bucketMin (skBucketizer.p2.valueToBucketIndex 0 + 1)
    then some [(skBucketizer.p2.valueToBucketIndex 0, 1)] else none) = some [(0, 1)]
  have hidx0 : skBucketizer.p2.valueToBucketIndex 0 = 0 := rfl
  rw [hidx0, if_pos]
  refine ⟨le_of_eq p2_min_zero, ?_⟩
  show (0 : ℚ) < skBucketizer.p2.bucketMin (0 + 1)
  rw [show (0 + 1 : ℕ) = 1 from rfl, p2_min_one]
  norm_num

lemma p2_bucketize_zero_half :
    skBucketizer.p2.bucketize [(0, 1)] (1 / 2) 1 = some [(0, 2)] := by
  show (if skBucketizer.p2.bucketMin 0 ≤ 1 / 2 ∧
      (1 / 2 : ℚ) < skBucketizer.p2.bucketMin (0 + 1)
    then some [(0, (1 : ℚ) + 1)] else _) = some [(0, 2)]
  rw [if_pos]
  · norm_num
  refine ⟨?_, ?_⟩
  · rw [p2_min_zero]
    norm_num
  · show (1 / 2 : ℚ) < skBucketizer.p2.bucketMin (0 + 1)
    rw [show (0 + 1 : ℕ) = 1 from rfl, p2_min_one]
    norm_num

/-- Counterexample to claim C1 as stated: under the power-of-two bucketizer
the observations `(1/2, 1)` and `(0, 1)` — non-negative values, a
permutation of each other — do not merge order-independently.  Inserting
`1/2` first makes `bucketize` throw (its round-trip assertion fails because
`_valueToBucketIndex (1/2) = 1` while bucket 1 starts at 1), whereas
inserting `0` first silently merges `1/2` into bucket 0, giving `[(0, 2)]`. -/
theorem bucketize_order_dependence_p2 :
    List.Perm [((1 / 2 : ℚ), (1 : ℚ)), (0, 1)] [((0 : ℚ), (1 : ℚ)), (1 / 2, 1)] ∧
      (∀ p ∈ [((1 / 2 : ℚ), (1 : ℚ)), (0, 1)], 0 ≤ p.1) ∧
      bucketizeAll .p2 [((1 / 2 : ℚ), (1 : ℚ)), (0, 1)] = none ∧
      bucketizeAll .p2 [((0 : ℚ), (1 : ℚ)), (1 / 2, 1)] = some [(0, 2)] := by
  refine ⟨List.Perm.swap ((0 : ℚ), (1 : ℚ)) ((1 / 2 : ℚ), (1 : ℚ)) [], ?_, ?_, ?_⟩
  · intro p hq
    simp at hq
    rcases hq with h | h <;> rw [h] <;> norm_num
  · have e1 : bucketizeAll .p2 [((1 / 2 : ℚ), (1 : ℚ)), (0, 1)] =
        List.foldl (fun od p => od.bind fun dd => skBucketizer.p2.bucketize dd p.1 p.2)
          (skBucketizer.p2.bucketize [] (1 / 2) 1) [((0 : ℚ), (1 : ℚ))] := rfl
    rw [e1, p2_bucketize_nil_half]
    rfl
  · have e2 : bucketizeAll .p2 [((0 : ℚ), (1 : ℚ)), (1 / 2, 1)] =
        List.foldl (fun od p => od.bind fun dd => skBucketizer.p2.bucketize dd p.1 p.2)
          (skBucketizer.p2.bucketize [] 0 1) [((1 / 2 : ℚ), (1 : ℚ))] := rfl
    rw [e2, p2_bucketize_nil_zero]
    have e3 : List.foldl (fun od p => od.bind fun dd => skBucketizer.p2.bucketize dd p.1 p.2)
        (some [(0, 1)]) [((1 / 2 : ℚ), (1 : ℚ))] =
          skBucketizer.p2.bucketize [(0, 1)] (1 / 2) 1 := rfl
    rw [e3, p2_bucketize_zero_half]

/-- Claim C2 (amended): for every valid bucketizer variant,
`_valueToBucketIndex (_bucketIndexToMin i) = i` for every ordinal `i`, and
every non-negative value lies inside the half-open bucket its computed
ordinal denotes — except that for the power-of-two variant the second part
requires the value to be 0 or at least 1 (values strictly inside `(0, 1)`
are sent to ordinal 1, whose bucket starts at 1). -/
theorem bucketizer_inverse_consistency (b : skBucketizer) (hv : b.Valid) :
    (∀ i : ℕ, b.valueToBucketIndex (b.bucketIndexToMin i) = i) ∧
      ∀ v : ℚ, 0 ≤ v → (b = .p2 → v = 0 ∨ 1 ≤ v) →
        b.bucketIndexToMin (b.valueToBucketIndex v) ≤ v ∧
          v < b.bucketIndexToMin (b.valueToBucketIndex v + 1) :=
  ⟨valid_roundtrip hv, fun _ h0 hp => valid_containment hv h0 hp⟩

/-- Witness for C2 at the power-of-two bucketizer, ordinal 5 and value 12. -/
theorem bucketizer_inverse_consistency_witness :
    skBucketizer.p2.valueToBucketIndex (skBucketizer.p2.bucketIndexToMin 5) = 5 ∧
      skBucketizer.p2.bucketIndexToMin (skBucketizer.p2.valueToBucketIndex 12) ≤ 12 ∧
        (12 : ℚ) < skBucketizer.p2.bucketIndexToMin
          (skBucketizer.p2.valueToBucketIndex 12 + 1) :=
  ⟨(bucketizer_inverse_consistency .p2 trivial).1 5,
    (bucketizer_inverse_consistency .p2 trivial).2 12 (by norm_num)
      (fun _ => Or.inr (by norm_num))⟩

/-- Counterexample to claim C2 as stated: for the power-of-two bucketizer
and the non-negative value `1/2`, `_valueToBucketIndex` answers ordinal 1,
whose minimum 1 exceeds the value — the claimed containment
`minForIndex(indexForValue(v)) ≤ v` fails. -/
theorem p2_roundtrip_violation :
    (0 : ℚ) ≤ 1 / 2 ∧
      ¬ skBucketizer.p2.bucketIndexToMin
          (skBucketizer.p2.valueToBucketIndex (1 / 2)) ≤ 1 / 2 := by
  refine ⟨by norm_num, ?_⟩
  rw [p2_idx_half]
  rw [show skBucketizer.p2.bucketIndexToMin 1 = 1 from p2_min_one]
  norm_num

lemma nat_log_two_of_bounds {n : ℕ} (h1 : 2 ≤ n) (h2 : n < 4) : Nat.log 2 n = 1 :=
  Nat.log_eq_of_pow_le_of_lt_pow (by omega) (by omega)

/-- Claim C7: power-of-two boundary behavior — `_valueToBucketIndex` maps
0 to 0, 1 to 1, 2 and 3 to 2, and every value in `[4, 7]` to 3, while
`_bucketIndexToMin` maps 0 to 0 and every `i ≥ 1` to `2^(i-1)`. -/
theorem p2_boundary_values :
    skBucketizer.p2.valueToBucketIndex 0 = 0 ∧
      skBucketizer.p2.valueToBucketIndex 1 = 1 ∧
      skBucketizer.p2.valueToBucketIndex 2 = 2 ∧
      skBucketizer.p2.valueToBucketIndex 3 = 2 ∧
      (∀ v : ℚ, 4 ≤ v → v ≤ 7 → skBucketizer.p2.valueToBucketIndex v = 3) ∧
      skBucketizer.p2.bucketIndexToMin 0 = 0 ∧
      (∀ i : ℕ, 1 ≤ i → skBucketizer.p2.bucketIndexToMin i = 2 ^ (i - 1)) := by
  refine ⟨rfl, ?_, ?_, ?_, ?_, rfl, ?_⟩
  · rw [p2_valueToBucketIndex_eq (by norm_num), if_neg (by norm_num)]
    rw [show ⌊(1 : ℚ)⌋₊ = 1 from Nat.floor_one, Nat.log_one_right]
  · rw [p2_valueToBucketIndex_eq (by norm_num), if_neg (by norm_num)]
    rw [show ⌊(2 : ℚ)⌋₊ = 2 by norm_num, nat_log_two_of_bounds (by omega) (by omega)]
  · rw [p2_valueToBucketIndex_eq (by norm_num), if_neg (by norm_num)]
    rw [show ⌊(3 : ℚ)⌋₊ = 3 by norm_num, nat_log_two_of_bounds (by omega) (by omega)]
  · intro v h4 h7
    have h0 : (0 : ℚ) ≤ v := by linarith
    rw [p2_valueToBucketIndex_eq h0, if_neg (by intro h; rw [h] at h4; norm_num at h4)]
    have hlo : 4 ≤ ⌊v⌋₊ := Nat.le_floor (by exact_mod_cast h4)
    have hhi : ⌊v⌋₊ < 8 := (Nat.floor_lt h0).mpr (by push_cast; linarith)
    have hpow1 : (2 : ℕ) ^ 2 ≤ ⌊v⌋₊ := by
      have h2 : (2 : ℕ) ^ 2 = 4 := by norm_num
      omega
    have hpow2 : ⌊v⌋₊ < 2 ^ (2 + 1) := by
      have h2 : (2 : ℕ) ^ (2 + 1) = 8 := by norm_num
      omega
    rw [show Nat.log 2 ⌊v⌋₊ = 2 from Nat.log_eq_of_pow_le_of_lt_pow hpow1 hpow2]
  · intro i hi
    show (if i = 0 then (0 : ℚ) else 2 ^ (i - 1)) = 2 ^ (i - 1)
    rw [if_neg (by omega)]

/-- Witness for C7 at value 5 and ordinal 4. -/
theorem p2_boundary_values_witness :
    skBucketizer.p2.valueToBucketIndex 5 = 3 ∧
      skBucketizer.p2.bucketIndexToMin 4 = 2 ^ 3 :=
  ⟨p2_boundary_values.2.2.2.2.1 5 (by norm_num) (by norm_num),
    p2_boundary_values.2.2.2.2.2.2 4 (by omega)⟩

/-- Claim C9 (amended): for an integer base at least 2, constructing
`skLogLinearBucketizer(base, nbuckets)` succeeds exactly when
`nbuckets % base == 0` and `nbuckets` divides every power of `base` that is
at least `nbuckets` (equivalently, the first such power, which is what the
constructor checks); otherwise the constructor throws synchronously.  This
is strictly stronger than the claim's "divides some power of base". -/
theorem loglinear_construction_condition (base nb : ℕ) (hb : 2 ≤ base) :
    llConstructs base nb = true ↔
      nb % base = 0 ∧ ∀ k, nb ≤ base ^ k → nb ∣ base ^ k :=
  llConstructs_iff hb

/-- Witness for C9: base 10 with 20 buckets constructs, and the conditions
hold. -/
theorem loglinear_construction_condition_witness :
    llConstructs 10 20 = true ∧ 20 % 10 = 0 ∧ 20 ∣ 10 ^ 2 := by
  refine ⟨?_, by norm_num, by norm_num⟩
  rw [loglinear_construction_condition 10 20 (by omega)]
  refine ⟨by norm_num, ?_⟩
  intro k hk
  have hk2 : 2 ≤ k := by
    by_contra hlt
    interval_cases k <;> omega
  have : (10 : ℕ) ^ k = 10 ^ 2 * 10 ^ (k - 2) := by
    rw [← pow_add]
    congr 1
    omega
  rw [this]
  exact Dvd.dvd.mul_right (by norm_num) _

/-- Counterexample to claim C9 as stated: with base 12 and 96 buckets,
`96 % 12 == 0` and 96 divides the power `12³ = 1728`, so the claim says
construction succeeds; but the constructor checks only the first power of
12 that reaches 96 — namely 144, which 96 does not divide — and throws. -/
theorem loglinear_construction_claim_false :
    96 % 12 = 0 ∧ (96 : ℕ) ∣ 12 ^ 3 ∧ llConstructs 12 96 = false := by
  refine ⟨by norm_num, by norm_num, by decide⟩

/-! Claim C8: bucketMax formula and bucket membership. -/

/-- Claim C8: for every valid bucketizer and ordinal, the bucket minima are
non-negative and strictly increasing (so the `bucketMax` assertions hold),
`bucketMax` follows the claimed derived formula, and bucket membership in
`bucketize` is decided only by `[bucketMin o, bucketMin (o+1))`, never by
`bucketMax`: the head entry is incremented exactly when the value lies in
that half-open interval. -/
theorem bucketMax_formula_and_membership (b : skBucketizer) (hv : b.Valid) (i : ℕ) :
    (0 ≤ b.bucketMin i ∧ b.bucketMin i < b.bucketMin (i + 1)) ∧
      b.bucketMax i =
        (if 1 ≤ b.bucketMin (i + 1) - b.bucketMin i then b.bucketMin (i + 1) - 1
          else b.bucketMin (i + 1) - (b.bucketMin (i + 1) - b.bucketMin i) / 10) ∧
      ∀ (o : ℕ) (n c : ℚ) (rest : List (ℕ × ℚ)) (v : ℚ), c ≠ 0 →
        (b.bucketize ((o, n) :: rest) v c = some ((o, n + c) :: rest) ↔
          b.bucketMin o ≤ v ∧ v < b.bucketMin (o + 1)) := by
  refine ⟨⟨valid_min_nonneg hv i, valid_min_lt_succ hv i⟩, rfl, ?_⟩
  intro o n c rest v hc
  constructor
  · intro heq
    by_contra hnot
    simp only [skBucketizer.bucketize] at heq
    rw [if_neg hnot] at heq
    by_cases hlt : v < b.bucketMin o
    · rw [if_pos hlt] at heq
      by_cases hck : b.bucketMin (b.valueToBucketIndex v) ≤ v ∧
          v < b.bucketMin (b.valueToBucketIndex v + 1)
      · rw [if_pos hck] at heq
        have heq2 := Option.some.inj heq
        have hlen := congrArg List.length heq2
        simp at hlen
      · rw [if_neg hck] at heq
        exact Option.noConfusion heq
    · rw [if_neg hlt] at heq
      cases htl : b.bucketize rest v c with
      | none =>
        rw [htl] at heq
        exact Option.noConfusion heq
      | some l2 =>
        rw [htl] at heq
        have heq2 : (o, n) :: l2 = (o, n + c) :: rest := Option.some.inj heq
        have hpair : (o, n) = (o, n + c) := (List.cons.inj heq2).1
        have hcc : n = n + c := congrArg Prod.snd hpair
        have hc0 : c = 0 := by linarith
        exact hc hc0
  · intro hin
    simp only [skBucketizer.bucketize]
    rw [if_pos hin]

/-- Witness for C8 at the linear bucketizer with step 1, ordinal 0, and an
increment of the entry for ordinal 3 by the value 7/2. -/
theorem bucketMax_formula_and_membership_witness :
    (0 ≤ (skBucketizer.linear 1).bucketMin 0 ∧
        (skBucketizer.linear 1).bucketMin 0 < (skBucketizer.linear 1).bucketMin (0 + 1)) ∧
      ((skBucketizer.linear 1).bucketize [((3 : ℕ), (2 : ℚ))] (7 / 2) 1 =
          some [(3, 2 + 1)] ↔
        (skBucketizer.linear 1).bucketMin 3 ≤ 7 / 2 ∧
          (7 / 2 : ℚ) < (skBucketizer.linear 1).bucketMin (3 + 1)) :=
  ⟨(bucketMax_formula_and_membership (.linear 1) (by norm_num [skBucketizer.Valid]) 0).1,
    (bucketMax_formula_and_membership (.linear 1) (by norm_num [skBucketizer.Valid]) 0).2.2
      3 2 1 [] (7 / 2) (by norm_num)⟩

/-! Claim C4: the distribution invariant under `bucketize`. -/

lemma map_bump_id {t : List (ℕ × ℚ)} {k : ℕ} {c : ℚ} (h : ∀ p ∈ t, p.1 ≠ k) :
    t.map (fun p => if p.1 = k then (p.1, p.2 + c) else p) = t := by
  induction t with
  | nil => rfl
  | cons hd tl ih =>
    simp only [List.map_cons]
    rw [if_neg (h hd (List.mem_cons_self hd tl)), ih (fun p hq => h p (List.mem_cons_of_mem hd hq))]

lemma insertOrd_mem_bump :
    ∀ (l : List (ℕ × ℚ)) (k : ℕ) (c : ℚ),
      (l.map Prod.fst).Pairwise (· < ·) → k ∈ l.map Prod.fst →
        insertOrd l k c = l.map (fun p => if p.1 = k then (p.1, p.2 + c) else p) := by
  intro l k c
  induction l with
  | nil =>
    intro _ hk
    simp at hk
  | cons hd tl ih =>
    obtain ⟨o, n⟩ := hd
    intro hs hk
    simp only [List.map_cons, List.pairwise_cons] at hs
    obtain ⟨ho, htl⟩ := hs
    by_cases heq : k = o
    · subst heq
      simp only [insertOrd, if_pos rfl, List.map_cons, if_pos rfl]
      rw [map_bump_id (fun p hq => by
        have := ho p.1 (List.mem_map_of_mem Prod.fst hq)
        omega)]
      simp
    · have hkt : k ∈ tl.map Prod.fst := by
        simp only [List.map_cons, List.mem_cons] at hk
        rcases hk with h | h
        · exact absurd h heq
        · exact h
      have hko : o < k := ho k hkt
      simp only [insertOrd]
      rw [if_neg heq, if_neg (by omega), List.map_cons, if_neg (by omega),
        ih htl hkt]

lemma insertOrd_not_mem_split :
    ∀ (l : List (ℕ × ℚ)) (k : ℕ) (c : ℚ),
      (l.map Prod.fst).Pairwise (· < ·) → k ∉ l.map Prod.fst →
        ∃ l1 l2, l = l1 ++ l2 ∧ insertOrd l k c = l1 ++ (k, c) :: l2 ∧
          (∀ p ∈ l1, p.1 < k) ∧ (∀ p ∈ l2, k < p.1) := by
  intro l k c
  induction l with
  | nil =>
    intro _ _
    exact ⟨[], [], rfl, rfl, by simp, by simp⟩
  | cons hd tl ih =>
    obtain ⟨o, n⟩ := hd
    intro hs hk
    simp only [List.map_cons, List.pairwise_cons] at hs
    obtain ⟨ho, htl⟩ := hs
    simp only [List.map_cons, List.mem_cons] at hk
    push_neg at hk
    obtain ⟨hko, hkt⟩ := hk
    rcases Nat.lt_or_ge k o with hlt | hge
    · refine ⟨[], (o, n) :: tl, rfl, ?_, by simp, ?_⟩
      · simp only [insertOrd]
        rw [if_neg hko, if_pos hlt]
        rfl
      · intro p hq
        rcases List.mem_cons.mp hq with h | h
        · rw [h]
          exact hlt
        · have := ho p.1 (List.mem_map_of_mem Prod.fst h)
          omega
    · have hgt : o < k := by omega
      obtain ⟨l1, l2, he1, he2, hall1, hall2⟩ := ih htl hkt
      refine ⟨(o, n) :: l1, l2, by rw [he1, List.cons_append], ?_, ?_, hall2⟩
      · simp only [insertOrd]
        rw [if_neg hko, if_neg (by omega), he2]
        rfl
      · intro p hq
        rcases List.mem_cons.mp hq with h | h
        · rw [h]
          exact hgt
        · exact hall1 p h

/-- Claim C4 (amended): on a strictly-ascending duplicate-free distribution
and a non-negative value — for the power-of-two variant additionally a
value that is 0 or at least 1, since values in `(0,1)` make `bucketize`
throw or (ignoring the assertion) would create a duplicate ordinal —
`bucketize` succeeds and equals sorted insert-or-merge at the computed
ordinal: the invariant is preserved, an existing entry is merged in place
with no new entry, and an absent ordinal is inserted as `(indexForValue
value, cardinality)` exactly at the scan position. -/
theorem bucketize_preserves_invariant (b : skBucketizer) (hv : b.Valid)
    (d : List (ℕ × ℚ)) (hd : (d.map Prod.fst).Pairwise (· < ·))
    (v c : ℚ) (h0 : 0 ≤ v) (hp : b = .p2 → v = 0 ∨ 1 ≤ v) :
    b.bucketize d v c = some (insertOrd d (b.valueToBucketIndex v) c) ∧
      ((insertOrd d (b.valueToBucketIndex v) c).map Prod.fst).Pairwise (· < ·) ∧
      (b.valueToBucketIndex v ∈ d.map Prod.fst →
        insertOrd d (b.valueToBucketIndex v) c =
          d.map (fun p => if p.1 = b.valueToBucketIndex v then (p.1, p.2 + c) else p)) ∧
      (b.valueToBucketIndex v ∉ d.map Prod.fst →
        ∃ l1 l2, d = l1 ++ l2 ∧
          insertOrd d (b.valueToBucketIndex v) c = l1 ++ (b.valueToBucketIndex v, c) :: l2 ∧
          (∀ p ∈ l1, p.1 < b.valueToBucketIndex v) ∧
          (∀ p ∈ l2, b.valueToBucketIndex v < p.1)) :=
  ⟨bucketize_eq_insertOrd hv h0 hp d c,
    insertOrd_sorted d _ c hd,
    fun hmem => insertOrd_mem_bump d _ c hd hmem,
    fun hmem => insertOrd_not_mem_split d _ c hd hmem⟩

/-- Witness for C4: merging value 5 with cardinality 2 into the
power-of-two distribution `[(0, 1), (3, 4)]`. -/
theorem bucketize_preserves_invariant_witness :
    skBucketizer.p2.bucketize [(0, 1), (3, 4)] 5 2 =
      some (insertOrd [(0, 1), (3, 4)] (skBucketizer.p2.valueToBucketIndex 5) 2) ∧
      ((insertOrd [(0, 1), (3, 4)] (skBucketizer.p2.valueToBucketIndex 5) 2).map
        Prod.fst).Pairwise (· < ·) :=
  ⟨(bucketize_preserves_invariant .p2 trivial [(0, 1), (3, 4)]
      (by simp) 5 2 (by norm_num) (fun _ => Or.inr (by norm_num))).1,
    (bucketize_preserves_invariant .p2 trivial [(0, 1), (3, 4)]
      (by simp) 5 2 (by norm_num) (fun _ => Or.inr (by norm_num))).2.1⟩

/-- Counterexample to claim C4 as stated: `[(1, 5)]` is a strictly
ascending distribution and `1/2` a non-negative value, yet
`bucketize` under the power-of-two variant throws an assertion
(`value >= bucketMin(bidx)` fails for `bidx = indexForValue(1/2) = 1`)
instead of yielding an updated list; ignoring the assertion, the splice
position would duplicate ordinal 1. -/
theorem bucketize_duplicate_crash :
    ([((1 : ℕ), (5 : ℚ))].map Prod.fst).Pairwise (· < ·) ∧ (0 : ℚ) ≤ 1 / 2 ∧
      skBucketizer.p2.bucketize [(1, 5)] (1 / 2) 1 = none := by
  refine ⟨by simp, by norm_num, ?_⟩
  show (if skBucketizer.p2.bucketMin 1 ≤ 1 / 2 ∧
      (1 / 2 : ℚ) < skBucketizer.p2.bucketMin (1 + 1) then some [(1, (5 : ℚ) + 1)]
    else if (1 / 2 : ℚ) < skBucketizer.p2.bucketMin 1 then
      (if skBucketizer.p2.bucketMin (skBucketizer.p2.valueToBucketIndex (1 / 2)) ≤ 1 / 2 ∧
          (1 / 2 : ℚ) < skBucketizer.p2.bucketMin (skBucketizer.p2.valueToBucketIndex (1 / 2) + 1)
        then some [(skBucketizer.p2.valueToBucketIndex (1 / 2), 1), (1, 5)] else none)
    else (skBucketizer.p2.bucketize [] (1 / 2) 1).map fun l => (1, (5 : ℚ)) :: l) = none
  rw [if_neg (by
      intro hcon
      rw [p2_min_one] at hcon
      exact absurd hcon.1 (by norm_num)),
    if_pos (by rw [p2_min_one]; norm_num),
    p2_idx_half,
    if_neg (by
      intro hcon
      rw [p2_min_one] at hcon
      exact absurd hcon.1 (by norm_num))]


/-! ### Aggregator: well-formedness of reachable trees -/

lemma lookupS_cons_ite (k k2 : String) (t2 : Node) (tl : List (String × Node)) :
    List.lookup k ((k2, t2) :: tl) = if k = k2 then some t2 else List.lookup k tl := by
  show (match k == k2 with
    | true => some t2
    | false => List.lookup k tl) = _
  by_cases h : k = k2
  · rw [if_pos h, beq_iff_eq.mpr h]
  · rw [if_neg h, beq_eq_false_iff_ne.mpr h]

lemma lookup_isSome_of_mem {kvs : List (String × Node)} {k : String}
    (h : k ∈ kvs.map Prod.fst) : (kvs.lookup k).isSome = true := by
  induction kvs with
  | nil => simp at h
  | cons hd tl ih =>
    obtain ⟨k2, t2⟩ := hd
    rw [lookupS_cons_ite]
    simp only [List.map_cons, List.mem_cons] at h
    by_cases he : k = k2
    · rw [if_pos he]
      rfl
    · rw [if_neg he]
      exact ih (h.resolve_left he)

lemma not_mem_of_lookup_isNone {kvs : List (String × Node)} {k : String}
    (h : (kvs.lookup k).isSome = false) : k ∉ kvs.map Prod.fst := by
  intro hmem
  rw [lookup_isSome_of_mem hmem] at h
  exact Bool.noConfusion h

lemma mem_of_lookupS_eq_some {kvs : List (String × Node)} {k : String} {c : Node}
    (h : kvs.lookup k = some c) : (k, c) ∈ kvs := by
  induction kvs with
  | nil => exact Option.noConfusion h
  | cons hd tl ih =>
    obtain ⟨k2, t2⟩ := hd
    rw [lookupS_cons_ite] at h
    by_cases he : k = k2
    · rw [if_pos he] at h
      have : (k, c) = (k2, t2) := by rw [he, Option.some.inj h]
      rw [this]
      exact List.mem_cons_self _ _
    · rw [if_neg he] at h
      exact List.mem_cons_of_mem _ (ih h)

lemma updateTree_cons (bzs : List (String × skBucketizer)) (fields : List (String × JSVal))
    (v : ℚ) (f : String) (rest : List String) (kvs : List (String × Node)) :
    updateTree bzs fields v (f :: rest) (.branch kvs) =
      match bzs.lookup f with
      | some bz =>
        match coerceNum (pluck fields f) with
        | none => .fail f (parseDelta (pluck fields f)) (.branch kvs)
        | some q =>
          match updateTree bzs fields v rest
              (match kvs.lookup (jsToString (.num ((bz.valueToBucketIndex q : ℕ) : ℚ))) with
                | some c => c
                | none => if rest.isEmpty then Node.leaf 0 else Node.branch []) with
          | .ok t2 pd2 =>
            .ok (.branch (setKey kvs (jsToString (.num ((bz.valueToBucketIndex q : ℕ) : ℚ))) t2))
              (parseDelta (pluck fields f) + pd2)
          | .fail f2 pd2 t2 =>
            .fail f2 (parseDelta (pluck fields f) + pd2)
              (.branch (setKey kvs (jsToString (.num ((bz.valueToBucketIndex q : ℕ) : ℚ))) t2))
          | .crash => .crash
      | none =>
        match updateTree bzs fields v rest
            (match kvs.lookup (jsToString (pluck fields f)) with
              | some c => c
              | none => if rest.isEmpty then Node.leaf 0 else Node.branch []) with
        | .ok t2 pd2 => .ok (.branch (setKey kvs (jsToString (pluck fields f)) t2)) pd2
        | .fail f2 pd2 t2 => .fail f2 pd2 (.branch (setKey kvs (jsToString (pluck fields f)) t2))
        | .crash => .crash := rfl

lemma childFor_wf {kvs : List (String × Node)} {rest : List String}
    (hall : ∀ p ∈ kvs, WFNode rest.length p.2) (key : String) :
    WFNode rest.length (match kvs.lookup key with
      | some c => c
      | none => if rest.isEmpty then Node.leaf 0 else Node.branch []) := by
  rcases hlk : kvs.lookup key with _ | c
  · cases rest with
    | nil => exact ⟨0, rfl⟩
    | cons a l => exact ⟨[], rfl, List.nodup_nil, by simp⟩
  · exact hall (key, c) (mem_of_lookupS_eq_some hlk)

lemma setKey_wf {kvs : List (String × Node)} {k : String} {t : Node} {d : ℕ}
    (hnd : (kvs.map Prod.fst).Nodup) (hall : ∀ p ∈ kvs, WFNode d p.2)
    (ht : WFNode d t) :
    ((setKey kvs k t).map Prod.fst).Nodup ∧ ∀ p ∈ setKey kvs k t, WFNode d p.2 := by
  unfold setKey
  by_cases hp : (kvs.lookup k).isSome = true
  · rw [if_pos hp]
    constructor
    · have hkeys : (kvs.map (fun p => if p.1 = k then (k, t) else p)).map Prod.fst
          = kvs.map Prod.fst := by
        rw [List.map_map]
        apply List.map_congr_left
        intro p _
        by_cases hq : p.1 = k
        · simp [hq]
        · simp [hq]
      rw [hkeys]
      exact hnd
    · intro p hq
      obtain ⟨q, hq2, hq3⟩ := List.mem_map.mp hq
      by_cases hqk : q.1 = k
      · rw [if_pos hqk] at hq3
        rw [← hq3]
        exact ht
      · rw [if_neg hqk] at hq3
        rw [← hq3]
        exact hall q hq2
  · rw [if_neg hp]
    have hnm : k ∉ kvs.map Prod.fst :=
      not_mem_of_lookup_isNone (Bool.not_eq_true _ |>.mp hp)
    constructor
    · rw [List.map_append]
      simp only [List.map_cons, List.map_nil]
      rw [List.nodup_append]
      refine ⟨hnd, List.nodup_singleton k, ?_⟩
      intro a ha hb
      simp only [List.mem_singleton] at hb
      rw [hb] at ha
      exact hnm ha
    · intro p hq
      rcases List.mem_append.mp hq with h | h
      · exact hall p h
      · simp only [List.mem_singleton] at h
        rw [h]
        exact ht

lemma updateTree_wf (bzs : List (String × skBucketizer))
    (fields : List (String × JSVal)) (v : ℚ) :
    ∀ (decomps : List String) (t : Node), WFNode decomps.length t →
      (∃ t2 pd, updateTree bzs fields v decomps t = .ok t2 pd ∧
          WFNode decomps.length t2) ∨
        (∃ f pd t2, updateTree bzs fields v decomps t = .fail f pd t2 ∧
          WFNode decomps.length t2) := by
  intro decomps
  induction decomps with
  | nil =>
    intro t hwf
    obtain ⟨q, hq⟩ := hwf
    subst hq
    exact Or.inl ⟨.leaf (q + v), 0, rfl, ⟨q + v, rfl⟩⟩
  | cons f rest ih =>
    intro t hwf
    obtain ⟨kvs, hkvs, hnd, hall⟩ := hwf
    subst hkvs
    have hbranch : ∀ (key : String) (t2 : Node), WFNode rest.length t2 →
        WFNode (f :: rest).length (.branch (setKey kvs key t2)) := by
      intro key t2 h2
      obtain ⟨hnd2, hall2⟩ := setKey_wf hnd hall h2
      exact ⟨_, rfl, hnd2, hall2⟩
    rw [updateTree_cons]
    rcases hbz : bzs.lookup f with _ | bz
    · rcases ih _ (childFor_wf hall (jsToString (pluck fields f))) with
        ⟨t2, pd, hok, hwf2⟩ | ⟨f2, pd, t2, hfail, hwf2⟩
      · rw [hok]
        exact Or.inl ⟨_, pd, rfl, hbranch _ t2 hwf2⟩
      · rw [hfail]
        exact Or.inr ⟨f2, pd, _, rfl, hbranch _ t2 hwf2⟩
    · rcases hq : coerceNum (pluck fields f) with _ | q
      · exact Or.inr ⟨f, parseDelta (pluck fields f), .branch kvs, rfl,
          ⟨kvs, rfl, hnd, hall⟩⟩
      · rcases ih _ (childFor_wf hall
            (jsToString (.num ((bz.valueToBucketIndex q : ℕ) : ℚ)))) with
          ⟨t2, pd, hok, hwf2⟩ | ⟨f2, pd, t2, hfail, hwf2⟩
        · simp only []
          rw [hok]
          exact Or.inl ⟨_, parseDelta (pluck fields f) + pd, rfl, hbranch _ t2 hwf2⟩
        · simp only []
          rw [hfail]
          exact Or.inr ⟨f2, parseDelta (pluck fields f) + pd, _, rfl, hbranch _ t2 hwf2⟩

lemma aggregate_wf (cfg : AggConfig) (st : AggState) (r : DataPoint)
    (hwf : WFNode cfg.decomps.length st.sa_value) :
    WFNode cfg.decomps.length (aggregate cfg st r).sa_value := by
  unfold aggregate
  rcases updateTree_wf cfg.bucketizers r.fields r.value cfg.decomps st.sa_value hwf with
    ⟨t2, pd, hok, hwf2⟩ | ⟨f2, pd, t2, hfail, hwf2⟩
  · rw [hok]
    exact hwf2
  · rw [hfail]
    exact hwf2

lemma initAggState_wf (cfg : AggConfig) :
    WFNode cfg.decomps.length (initAggState cfg).sa_value := by
  show WFNode cfg.decomps.length
    (if cfg.decomps.isEmpty then Node.leaf 0 else Node.branch [])
  cases hd : cfg.decomps with
  | nil => exact ⟨0, rfl⟩
  | cons a l =>
    rw [if_neg (by simp)]
    exact ⟨[], rfl, List.nodup_nil, by simp⟩

lemma foldl_aggregate_wf (cfg : AggConfig) (pts : List DataPoint) :
    WFNode cfg.decomps.length
      ((pts.foldl (aggregate cfg) (initAggState cfg)).sa_value) := by
  induction pts using List.reverseRecOn with
  | nil => exact initAggState_wf cfg
  | append_singleton l r ih =>
    rw [List.foldl_append, List.foldl_cons, List.foldl_nil]
    exact aggregate_wf cfg _ r ih

/-- Claim C5: grouping the six records of the basic example by the
discrete field `state` yields one row per distinct state value in
first-appearance order (`MA`, `CA`, `OR`), each carrying the sum of the
values of the records with that state: 972000, 505000 and 660000. -/
theorem aggregate_state_breakdown :
    skAggregate
      [⟨[("state", JSVal.str "MA")], 153000⟩,
        ⟨[("state", JSVal.str "MA")], 636000⟩,
        ⟨[("state", JSVal.str "MA")], 183000⟩,
        ⟨[("state", JSVal.str "CA")], 505000⟩,
        ⟨[("state", JSVal.str "OR")], 60000⟩,
        ⟨[("state", JSVal.str "OR")], 600000⟩] ["state"] [] =
      [[Cell.s "MA", Cell.n 972000],
        [Cell.s "CA", Cell.n 505000],
        [Cell.s "OR", Cell.n 660000]] := by
  have h : skAggregate
      [⟨[("state", JSVal.str "MA")], 153000⟩,
        ⟨[("state", JSVal.str "MA")], 636000⟩,
        ⟨[("state", JSVal.str "MA")], 183000⟩,
        ⟨[("state", JSVal.str "CA")], 505000⟩,
        ⟨[("state", JSVal.str "OR")], 60000⟩,
        ⟨[("state", JSVal.str "OR")], 600000⟩] ["state"] [] =
      [[Cell.s "MA", Cell.n (0 + 153000 + 636000 + 183000)],
        [Cell.s "CA", Cell.n (0 + 505000)],
        [Cell.s "OR", Cell.n (0 + 60000 + 600000)]] := rfl
  rw [h]
  norm_num

lemma flattenNode_shape {d : ℕ} :
    ∀ {t : Node}, WFNode d t → ∀ row ∈ flattenNode d t,
      ∃ (keys : List String) (q : ℚ),
        row = keys.map Cell.s ++ [Cell.n q] ∧ keys.length = d := by
  induction d with
  | zero =>
    intro t hwf row hrow
    obtain ⟨q, hq⟩ := hwf
    subst hq
    simp only [flattenNode, List.mem_singleton] at hrow
    exact ⟨[], q, by simp [hrow], rfl⟩
  | succ d ih =>
    intro t hwf row hrow
    obtain ⟨kvs, hkvs, hnd, hall⟩ := hwf
    subst hkvs
    simp only [flattenNode, List.mem_flatMap, List.mem_map] at hrow
    obtain ⟨p, hp, row0, hrow0, hroweq⟩ := hrow
    obtain ⟨keys, q, heq, hlen⟩ := ih (hall p hp) row0 hrow0
    refine ⟨p.1 :: keys, q, ?_, by simp [hlen]⟩
    rw [← hroweq, heq]
    simp

lemma shape_get {keys : List String} {q : ℚ} {i : ℕ} (hi : i < keys.length)
    (h : i < (keys.map Cell.s ++ [Cell.n q]).length) :
    (keys.map Cell.s ++ [Cell.n q]).get ⟨i, h⟩ = Cell.s (keys.get ⟨i, hi⟩) := by
  rw [List.get_eq_getElem, List.getElem_append_left (by simpa using hi)]
  simp

/-- Claim C10: `result()` re-coerces to numbers exactly the columns of
fields present in the bucketizer map — in every returned row a quantized
field's entry is a number while a discrete field's entry is the string
tree key; in particular a discrete field whose raw value was the number
`7` appears in the result as the string `"7"`, not as a number. -/
theorem result_column_types (cfg : AggConfig) (pts : List DataPoint)
    (row : List Cell)
    (hrow : row ∈ resultRows cfg (pts.foldl (aggregate cfg) (initAggState cfg))) :
    (row.length = cfg.decomps.length + 1 ∧
      ∀ (i : ℕ) (hi : i < cfg.decomps.length) (hr : i < row.length),
        ((cfg.bucketizers.lookup (cfg.decomps.get ⟨i, hi⟩)).isSome = true →
          ∃ q : ℚ, row.get ⟨i, hr⟩ = Cell.n q) ∧
        ((cfg.bucketizers.lookup (cfg.decomps.get ⟨i, hi⟩)).isSome = false →
          ∃ s : String, row.get ⟨i, hr⟩ = Cell.s s)) ∧
      skAggregate [⟨[("k", JSVal.num 7)], 3⟩] ["k"] [] = [[Cell.s "7", Cell.n 3]] := by
  constructor
  · unfold resultRows at hrow
    rw [List.mem_map] at hrow
    obtain ⟨row0, hrow0, hroweq⟩ := hrow
    obtain ⟨keys, q, hshape, hlen⟩ :=
      flattenNode_shape (foldl_aggregate_wf cfg pts) row0 hrow0
    subst hroweq
    subst hshape
    constructor
    · rw [List.length_mapIdx]
      simp [hlen]
    · intro i hi hr
      have h0 : i < (keys.map Cell.s ++ [Cell.n q]).length := by
        rw [List.length_mapIdx] at hr
        exact hr
      have hkey : i < keys.length := hlen ▸ hi
      rw [List.get_mapIdx _ _ i h0 hr, shape_get hkey h0]
      have hd : cfg.decomps[i]? = some (cfg.decomps.get ⟨i, hi⟩) := by
        rw [List.getElem?_eq_getElem hi, List.get_eq_getElem]
      constructor
      · intro hb
        refine ⟨(((keys.get ⟨i, hkey⟩).toNat?.getD 0 : ℕ) : ℚ), ?_⟩
        simp only [hd]
        rw [if_pos hb]
        rfl
      · intro hb
        refine ⟨keys.get ⟨i, hkey⟩, ?_⟩
        simp only [hd]
        rw [if_neg (by rw [hb]; exact Bool.false_ne_true)]
  · have h : skAggregate [⟨[("k", JSVal.num 7)], 3⟩] ["k"] [] =
        [[Cell.s "7", Cell.n (0 + 3)]] := rfl
    rw [h]
    norm_num

/-- Witness for C10: the single record with discrete field `k = 7`
aggregated under no bucketizers. -/
theorem result_column_types_witness :
    (([Cell.s "7", Cell.n (0 + 3)] : List Cell).length =
        (["k"] : List String).length + 1 ∧
      ∀ (i : ℕ) (hi : i < (["k"] : List String).length)
        (hr : i < ([Cell.s "7", Cell.n (0 + 3)] : List Cell).length),
        ((([] : List (String × skBucketizer)).lookup
            ((["k"] : List String).get ⟨i, hi⟩)).isSome = true →
          ∃ q : ℚ, ([Cell.s "7", Cell.n (0 + 3)] : List Cell).get ⟨i, hr⟩ = Cell.n q) ∧
        ((([] : List (String × skBucketizer)).lookup
            ((["k"] : List String).get ⟨i, hi⟩)).isSome = false →
          ∃ s : String,
            ([Cell.s "7", Cell.n (0 + 3)] : List Cell).get ⟨i, hr⟩ = Cell.s s)) ∧
      skAggregate [⟨[("k", JSVal.num 7)], 3⟩] ["k"] [] = [[Cell.s "7", Cell.n 3]] :=
  result_column_types ⟨["k"], []⟩ [⟨[("k", JSVal.num 7)], 3⟩]
    [Cell.s "7", Cell.n (0 + 3)]
    (show [Cell.s "7", Cell.n (0 + 3)] ∈ [[Cell.s "7", Cell.n (0 + 3)]] from
      List.mem_singleton.mpr rfl)

/-! ### Aggregator: quantization-failure behavior (claim C3) -/

lemma leafSum_branch_cons (kvs : List (String × Node)) (k : String) (p : List String) :
    leafSum (.branch kvs) (k :: p) =
      match kvs.lookup k with
      | some c => leafSum c p
      | none => none := rfl

lemma leafSum_empty_branch (p : List String) : leafSum (.branch []) p = none := by
  cases p with
  | nil => rfl
  | cons k p => rfl

lemma flattenNode_branch (d : ℕ) (kvs : List (String × Node)) :
    flattenNode (d + 1) (.branch kvs) =
      kvs.flatMap fun p => (flattenNode d p.2).map (Cell.s p.1 :: ·) := rfl

lemma flattenNode_empty_branch {d : ℕ} (hd : 0 < d) :
    flattenNode d (.branch []) = [] := by
  cases d with
  | zero => exact absurd hd (lt_irrefl 0)
  | succ e => rfl

lemma lookup_map_replace (kvs : List (String × Node)) (k : String) (t : Node)
    (h : (kvs.lookup k).isSome = true) :
    (kvs.map fun p => if p.1 = k then (k, t) else p).lookup k = some t := by
  induction kvs with
  | nil => exact Bool.noConfusion h
  | cons hd tl ih =>
    obtain ⟨k2, t2⟩ := hd
    simp only [List.map_cons]
    by_cases he : k2 = k
    · rw [if_pos he, lookupS_cons_ite, if_pos rfl]
    · rw [if_neg he, lookupS_cons_ite, if_neg (fun hh => he hh.symm)]
      rw [lookupS_cons_ite, if_neg (fun hh => he hh.symm)] at h
      exact ih h

lemma lookup_map_replace_ne (kvs : List (String × Node)) (k k2 : String) (t : Node)
    (hne : k2 ≠ k) :
    (kvs.map fun p => if p.1 = k then (k, t) else p).lookup k2 = kvs.lookup k2 := by
  induction kvs with
  | nil => rfl
  | cons hd tl ih =>
    obtain ⟨k3, t3⟩ := hd
    simp only [List.map_cons]
    by_cases he : k3 = k
    · rw [if_pos he, lookupS_cons_ite, lookupS_cons_ite, if_neg hne,
        if_neg (fun hh => hne (hh.trans he))]
      exact ih
    · rw [if_neg he, lookupS_cons_ite, lookupS_cons_ite]
      by_cases h2 : k2 = k3
      · rw [if_pos h2, if_pos h2]
      · rw [if_neg h2, if_neg h2]
        exact ih

lemma lookup_append_singleton (kvs : List (String × Node)) (k : String) (t : Node)
    (h : (kvs.lookup k).isSome = false) :
    (kvs ++ [(k, t)]).lookup k = some t := by
  induction kvs with
  | nil => rw [List.nil_append, lookupS_cons_ite, if_pos rfl]
  | cons hd tl ih =>
    obtain ⟨k2, t2⟩ := hd
    rw [List.cons_append, lookupS_cons_ite]
    rw [lookupS_cons_ite] at h
    by_cases he : k = k2
    · rw [if_pos he] at h
      exact absurd h (by simp)
    · rw [if_neg he] at h
      rw [if_neg he]
      exact ih h

lemma lookup_append_singleton_ne (kvs : List (String × Node)) (k k2 : String)
    (t : Node) (hne : k2 ≠ k) :
    (kvs ++ [(k, t)]).lookup k2 = kvs.lookup k2 := by
  induction kvs with
  | nil =>
    rw [List.nil_append, lookupS_cons_ite, if_neg hne]
  | cons hd tl ih =>
    obtain ⟨k3, t3⟩ := hd
    rw [List.cons_append, lookupS_cons_ite, lookupS_cons_ite]
    by_cases h2 : k2 = k3
    · rw [if_pos h2, if_pos h2]
    · rw [if_neg h2, if_neg h2]
      exact ih

lemma lookup_setKey_self (kvs : List (String × Node)) (k : String) (t : Node) :
    (setKey kvs k t).lookup k = some t := by
  unfold setKey
  by_cases hp : (kvs.lookup k).isSome = true
  · rw [if_pos hp]
    exact lookup_map_replace kvs k t hp
  · rw [if_neg hp]
    exact lookup_append_singleton kvs k t (Bool.not_eq_true _ |>.mp hp)

lemma lookup_setKey_ne (kvs : List (String × Node)) (k k2 : String) (t : Node)
    (hne : k2 ≠ k) : (setKey kvs k t).lookup k2 = kvs.lookup k2 := by
  unfold setKey
  by_cases hp : (kvs.lookup k).isSome = true
  · rw [if_pos hp]
    exact lookup_map_replace_ne kvs k k2 t hne
  · rw [if_neg hp]
    exact lookup_append_singleton_ne kvs k k2 t hne

lemma leafSum_setKey_child {kvs : List (String × Node)} {k : String}
    {rest : List String} {c2 : Node} (hrest : rest.isEmpty = false)
    (hls : ∀ p, leafSum c2 p =
      leafSum (match kvs.lookup k with
        | some c => c
        | none => if rest.isEmpty then Node.leaf 0 else Node.branch []) p) :
    ∀ path, leafSum (.branch (setKey kvs k c2)) path = leafSum (.branch kvs) path := by
  intro path
  cases path with
  | nil => rfl
  | cons k2 p =>
    rw [leafSum_branch_cons, leafSum_branch_cons]
    by_cases hk : k2 = k
    · subst hk
      rw [lookup_setKey_self]
      show leafSum c2 p = _
      rcases hlk : kvs.lookup k2 with _ | c
      · have h2 := hls p
        rw [hlk, hrest] at h2
        rw [if_neg Bool.false_ne_true, leafSum_empty_branch] at h2
        exact h2
      · have h2 := hls p
        rw [hlk] at h2
        exact h2
    · rw [lookup_setKey_ne _ _ _ _ hk]

lemma leafSum_setKey_pair {kvs1 kvs2 : List (String × Node)} {k : String}
    {u1 u2 : Node}
    (he : ∀ p, leafSum (.branch kvs1) p = leafSum (.branch kvs2) p)
    (hu : ∀ p, leafSum u1 p = leafSum u2 p) :
    ∀ p, leafSum (.branch (setKey kvs1 k u1)) p =
      leafSum (.branch (setKey kvs2 k u2)) p := by
  intro p
  cases p with
  | nil => rfl
  | cons k2 p =>
    rw [leafSum_branch_cons, leafSum_branch_cons]
    by_cases hk : k2 = k
    · subst hk
      rw [lookup_setKey_self, lookup_setKey_self]
      exact hu p
    · rw [lookup_setKey_ne _ _ _ _ hk, lookup_setKey_ne _ _ _ _ hk]
      have h2 := he (k2 :: p)
      rw [leafSum_branch_cons, leafSum_branch_cons] at h2
      exact h2

lemma childFor_equiv {kvs1 kvs2 : List (String × Node)} {rest : List String}
    (h1 : ∀ q ∈ kvs1, WFNode rest.length q.2)
    (h2 : ∀ q ∈ kvs2, WFNode rest.length q.2)
    (he : ∀ path, leafSum (.branch kvs1) path = leafSum (.branch kvs2) path)
    (key : String) :
    ∀ p, leafSum (match kvs1.lookup key with
        | some c => c
        | none => if rest.isEmpty then Node.leaf 0 else Node.branch []) p =
      leafSum (match kvs2.lookup key with
        | some c => c
        | none => if rest.isEmpty then Node.leaf 0 else Node.branch []) p := by
  intro p
  have hk := he (key :: p)
  rw [leafSum_branch_cons, leafSum_branch_cons] at hk
  rcases hlk1 : kvs1.lookup key with _ | c1 <;>
    rcases hlk2 : kvs2.lookup key with _ | c2
  · rfl
  · rw [hlk1, hlk2] at hk
    have hk2 : (none : Option ℚ) = leafSum c2 p := hk
    cases rest with
    | nil =>
      obtain ⟨q2, hq2⟩ := h2 (key, c2) (mem_of_lookupS_eq_some hlk2)
      subst hq2
      cases p with
      | nil => exact Option.noConfusion (show (none : Option ℚ) = some q2 from hk2)
      | cons a l => rfl
    | cons r rs =>
      show leafSum (Node.branch []) p = leafSum c2 p
      rw [leafSum_empty_branch]
      exact hk2
  · rw [hlk1, hlk2] at hk
    have hk2 : leafSum c1 p = none := hk
    cases rest with
    | nil =>
      obtain ⟨q1, hq1⟩ := h1 (key, c1) (mem_of_lookupS_eq_some hlk1)
      subst hq1
      cases p with
      | nil => exact Option.noConfusion (show some q1 = (none : Option ℚ) from hk2)
      | cons a l => rfl
    | cons r rs =>
      show leafSum c1 p = leafSum (Node.branch []) p
      rw [leafSum_empty_branch]
      exact hk2
  · rw [hlk1, hlk2] at hk
    exact hk

lemma updateTree_sim (bzs : List (String × skBucketizer))
    (fields : List (String × JSVal)) (v : ℚ) :
    ∀ (decomps : List String) (t1 t2 : Node),
      WFNode decomps.length t1 → WFNode decomps.length t2 →
      (∀ path, leafSum t1 path = leafSum t2 path) →
      (∃ u1 u2 pd1 pd2, updateTree bzs fields v decomps t1 = .ok u1 pd1 ∧
          updateTree bzs fields v decomps t2 = .ok u2 pd2 ∧
          ∀ path, leafSum u1 path = leafSum u2 path) ∨
        (∃ g pd1 pd2 u1 u2, updateTree bzs fields v decomps t1 = .fail g pd1 u1 ∧
          updateTree bzs fields v decomps t2 = .fail g pd2 u2 ∧
          ∀ path, leafSum u1 path = leafSum u2 path) := by
  intro decomps
  induction decomps with
  | nil =>
    intro t1 t2 hwf1 hwf2 he
    obtain ⟨q1, hq1⟩ := hwf1
    obtain ⟨q2, hq2⟩ := hwf2
    subst hq1
    subst hq2
    have hq : (some q1 : Option ℚ) = some q2 := he []
    have hq2 : q1 = q2 := Option.some.inj hq
    subst hq2
    exact Or.inl ⟨.leaf (q1 + v), .leaf (q1 + v), 0, 0, rfl, rfl, fun p => rfl⟩
  | cons f rest ih =>
    intro t1 t2 hwf1 hwf2 he
    obtain ⟨kvs1, hk1, hnd1, hall1⟩ := hwf1
    obtain ⟨kvs2, hk2, hnd2, hall2⟩ := hwf2
    subst hk1
    subst hk2
    rw [updateTree_cons bzs fields v f rest kvs1, updateTree_cons bzs fields v f rest kvs2]
    rcases hbz : bzs.lookup f with _ | bz
    · have hcheq := childFor_equiv hall1 hall2 he (jsToString (pluck fields f))
      rcases ih _ _ (childFor_wf hall1 (jsToString (pluck fields f)))
          (childFor_wf hall2 (jsToString (pluck fields f))) hcheq with
        ⟨u1, u2, pd1, pd2, h1, h2, hu⟩ | ⟨g, pd1, pd2, u1, u2, h1, h2, hu⟩
      · rw [h1, h2]
        exact Or.inl ⟨_, _, pd1, pd2, rfl, rfl, leafSum_setKey_pair he hu⟩
      · rw [h1, h2]
        exact Or.inr ⟨g, pd1, pd2, _, _, rfl, rfl, leafSum_setKey_pair he hu⟩
    · rcases hq : coerceNum (pluck fields f) with _ | q
      · exact Or.inr ⟨f, parseDelta (pluck fields f), parseDelta (pluck fields f),
          .branch kvs1, .branch kvs2, rfl, rfl, he⟩
      · have hcheq := childFor_equiv hall1 hall2 he
          (jsToString (.num ((bz.valueToBucketIndex q : ℕ) : ℚ)))
        rcases ih _ _
            (childFor_wf hall1 (jsToString (.num ((bz.valueToBucketIndex q : ℕ) : ℚ))))
            (childFor_wf hall2 (jsToString (.num ((bz.valueToBucketIndex q : ℕ) : ℚ))))
            hcheq with
          ⟨u1, u2, pd1, pd2, h1, h2, hu⟩ | ⟨g, pd1, pd2, u1, u2, h1, h2, hu⟩
        · simp only []
          rw [h1, h2]
          exact Or.inl ⟨_, _, parseDelta (pluck fields f) + pd1,
            parseDelta (pluck fields f) + pd2, rfl, rfl, leafSum_setKey_pair he hu⟩
        · simp only []
          rw [h1, h2]
          exact Or.inr ⟨g, parseDelta (pluck fields f) + pd1,
            parseDelta (pluck fields f) + pd2, _, _, rfl, rfl,
            leafSum_setKey_pair he hu⟩

lemma aggregate_sim (cfg : AggConfig) (st1 st2 : AggState) (r : DataPoint)
    (h1 : WFNode cfg.decomps.length st1.sa_value)
    (h2 : WFNode cfg.decomps.length st2.sa_value)
    (he : ∀ p, leafSum st1.sa_value p = leafSum st2.sa_value p) :
    ∀ p, leafSum (aggregate cfg st1 r).sa_value p =
      leafSum (aggregate cfg st2 r).sa_value p := by
  unfold aggregate
  rcases updateTree_sim cfg.bucketizers r.fields r.value cfg.decomps
      st1.sa_value st2.sa_value h1 h2 he with
    ⟨u1, u2, pd1, pd2, hu1, hu2, hu⟩ | ⟨g, pd1, pd2, u1, u2, hu1, hu2, hu⟩
  · rw [hu1, hu2]
    exact hu
  · rw [hu1, hu2]
    exact hu

lemma foldl_aggregate_wf_from (cfg : AggConfig) :
    ∀ (pts : List DataPoint) (st : AggState),
      WFNode cfg.decomps.length st.sa_value →
      WFNode cfg.decomps.length ((pts.foldl (aggregate cfg) st).sa_value) := by
  intro pts
  induction pts with
  | nil => exact fun st h => h
  | cons a l ih =>
    intro st h
    exact ih _ (aggregate_wf cfg st a h)

lemma foldl_aggregate_sim (cfg : AggConfig) :
    ∀ (more : List DataPoint) (st1 st2 : AggState),
      WFNode cfg.decomps.length st1.sa_value →
      WFNode cfg.decomps.length st2.sa_value →
      (∀ p, leafSum st1.sa_value p = leafSum st2.sa_value p) →
      ∀ p, leafSum ((more.foldl (aggregate cfg) st1).sa_value) p =
        leafSum ((more.foldl (aggregate cfg) st2).sa_value) p := by
  intro more
  induction more with
  | nil => exact fun st1 st2 _ _ he => he
  | cons a l ih =>
    intro st1 st2 h1 h2 he
    exact ih _ _ (aggregate_wf cfg st1 a h1) (aggregate_wf cfg st2 a h2)
      (aggregate_sim cfg st1 st2 a h1 h2 he)

lemma map_replace_id {tl : List (String × Node)} {k : String} {c2 : Node}
    (h : ∀ p ∈ tl, p.1 ≠ k) :
    tl.map (fun p => if p.1 = k then (k, c2) else p) = tl := by
  have h2 : ∀ p ∈ tl, (if p.1 = k then (k, c2) else p) = id p :=
    fun p hp => (if_neg (h p hp)).trans rfl
  rw [List.map_congr_left h2, List.map_id]

lemma flatMap_map_replace {d : ℕ} :
    ∀ (kvs : List (String × Node)) (k : String) (c c2 : Node),
      kvs.lookup k = some c →
      (kvs.map Prod.fst).Nodup →
      flattenNode d c2 = flattenNode d c →
      ((kvs.map fun p => if p.1 = k then (k, c2) else p).flatMap
          fun p => (flattenNode d p.2).map (Cell.s p.1 :: ·)) =
        kvs.flatMap fun p => (flattenNode d p.2).map (Cell.s p.1 :: ·) := by
  intro kvs
  induction kvs with
  | nil =>
    intro k c c2 h _ _
    exact Option.noConfusion h
  | cons hd tl ih =>
    intro k c c2 hlk hnd hfl
    obtain ⟨k2, t2⟩ := hd
    rw [lookupS_cons_ite] at hlk
    simp only [List.map_cons, List.flatMap_cons]
    by_cases he : k = k2
    · rw [if_pos he] at hlk
      have hc : t2 = c := Option.some.inj hlk
      have hhead : (if (k2, t2).1 = k then (k, c2) else (k2, t2)) = (k, c2) :=
        if_pos he.symm
      have htlid : tl.map (fun p => if p.1 = k then (k, c2) else p) = tl := by
        apply map_replace_id
        intro p hp hpk
        have hk2 : k2 ∉ tl.map Prod.fst := by
          rw [List.map_cons] at hnd
          exact (List.nodup_cons.mp hnd).1
        exact hk2 (he ▸ hpk ▸ List.mem_map_of_mem Prod.fst hp)
      rw [hhead, htlid]
      rw [show ((k, c2).1) = k from rfl, show ((k, c2).2) = c2 from rfl]
      rw [hfl, hc, he]
    · rw [if_neg he] at hlk
      have hhead : (if (k2, t2).1 = k then (k, c2) else (k2, t2)) = (k2, t2) :=
        if_neg (fun hh : (k2, t2).1 = k => he hh.symm)
      have hnd2 : (tl.map Prod.fst).Nodup := by
        rw [List.map_cons] at hnd
        exact (List.nodup_cons.mp hnd).2
      rw [hhead, ih k c c2 hlk hnd2 hfl]

lemma flatMap_append_empty {d : ℕ} (kvs : List (String × Node)) (k : String)
    (c2 : Node) (hfl : flattenNode d c2 = []) :
    ((kvs ++ [(k, c2)]).flatMap fun p => (flattenNode d p.2).map (Cell.s p.1 :: ·)) =
      kvs.flatMap fun p => (flattenNode d p.2).map (Cell.s p.1 :: ·) := by
  rw [List.flatMap_append]
  simp [hfl]

lemma flattenNode_setKey_preserve {kvs : List (String × Node)} {key : String}
    {m : ℕ} {c2 : Node} (hm : 0 < m) (hnd : (kvs.map Prod.fst).Nodup)
    (hfl : flattenNode m c2 = flattenNode m (match kvs.lookup key with
      | some c => c
      | none => Node.branch [])) :
    flattenNode (m + 1) (.branch (setKey kvs key c2)) =
      flattenNode (m + 1) (.branch kvs) := by
  rw [flattenNode_branch, flattenNode_branch]
  unfold setKey
  rcases hlk : kvs.lookup key with _ | c
  · rw [if_neg (show ¬((none : Option Node).isSome = true) from fun hh =>
      Bool.noConfusion hh)]
    rw [hlk] at hfl
    have h2 : flattenNode m c2 = flattenNode m (Node.branch []) := hfl
    rw [flattenNode_empty_branch hm] at h2
    exact flatMap_append_empty kvs key c2 h2
  · rw [if_pos (show ((some c).isSome = true) from rfl)]
    rw [hlk] at hfl
    have h2 : flattenNode m c2 = flattenNode m c := hfl
    exact flatMap_map_replace kvs key c c2 hlk hnd h2

lemma updateTree_fail_first (bzs : List (String × skBucketizer))
    (fields : List (String × JSVal)) (v : ℚ) (f : String) (rest : List String)
    (hq : (bzs.lookup f).isSome = true)
    (hbad : coerceNum (pluck fields f) = none) :
    ∀ (pre : List String) (t : Node),
      WFNode (pre ++ f :: rest).length t →
      (∀ g ∈ pre, (bzs.lookup g).isSome = true →
        ∃ qg, coerceNum (pluck fields g) = some qg) →
      ∃ pd t2, updateTree bzs fields v (pre ++ f :: rest) t = .fail f pd t2 ∧
        (∀ path, leafSum t2 path = leafSum t path) ∧
        flattenNode (pre ++ f :: rest).length t2 =
          flattenNode (pre ++ f :: rest).length t := by
  intro pre
  induction pre with
  | nil =>
    intro t hwf hpre
    rw [List.nil_append] at hwf ⊢
    obtain ⟨kvs, hkvs, hnd, hall⟩ := hwf
    subst hkvs
    obtain ⟨bz, hbz⟩ := Option.isSome_iff_exists.mp hq
    exact ⟨parseDelta (pluck fields f), .branch kvs,
      by rw [updateTree_cons, hbz, hbad], fun path => rfl, rfl⟩
  | cons g pre2 ih =>
    intro t hwf hpre
    rw [List.cons_append] at hwf ⊢
    obtain ⟨kvs, hkvs, hnd, hall⟩ := hwf
    subst hkvs
    have hrest : (pre2 ++ f :: rest).isEmpty = false := by
      cases pre2 with
      | nil => rfl
      | cons a l => rfl
    have hm : 0 < (pre2 ++ f :: rest).length := by simp
    have hpre2 : ∀ g2 ∈ pre2, (bzs.lookup g2).isSome = true →
        ∃ qg, coerceNum (pluck fields g2) = some qg :=
      fun g2 hg2 => hpre g2 (List.mem_cons_of_mem g hg2)
    rcases hbzg : bzs.lookup g with _ | bzg
    · obtain ⟨pd, c2, hupd, hls, hfl⟩ :=
        ih _ (childFor_wf hall (jsToString (pluck fields g))) hpre2
      refine ⟨pd, .branch (setKey kvs (jsToString (pluck fields g)) c2), ?_, ?_, ?_⟩
      · rw [updateTree_cons, hbzg, hupd]
      · exact leafSum_setKey_child hrest hls
      · rw [List.length_cons]
        have hfl2 : flattenNode (pre2 ++ f :: rest).length c2 =
            flattenNode (pre2 ++ f :: rest).length
              (match kvs.lookup (jsToString (pluck fields g)) with
                | some c => c
                | none => Node.branch []) := by
          rcases hlk : kvs.lookup (jsToString (pluck fields g)) with _ | c
          · rw [hlk, hrest, if_neg Bool.false_ne_true] at hfl
            exact hfl
          · rw [hlk] at hfl
            exact hfl
        exact flattenNode_setKey_preserve hm hnd hfl2
    · obtain ⟨qg, hqg⟩ := hpre g (List.mem_cons_self g pre2) (by rw [hbzg]; rfl)
      obtain ⟨pd, c2, hupd, hls, hfl⟩ :=
        ih _ (childFor_wf hall
          (jsToString (.num ((bzg.valueToBucketIndex qg : ℕ) : ℚ)))) hpre2
      refine ⟨parseDelta (pluck fields g) + pd,
        .branch (setKey kvs
          (jsToString (.num ((bzg.valueToBucketIndex qg : ℕ) : ℚ))) c2), ?_, ?_, ?_⟩
      · rw [updateTree_cons, hbzg, hqg]
        simp only []
        rw [hupd]
      · exact leafSum_setKey_child hrest hls
      · rw [List.length_cons]
        have hfl2 : flattenNode (pre2 ++ f :: rest).length c2 =
            flattenNode (pre2 ++ f :: rest).length
              (match kvs.lookup
                  (jsToString (.num ((bzg.valueToBucketIndex qg : ℕ) : ℚ))) with
                | some c => c
                | none => Node.branch []) := by
          rcases hlk : kvs.lookup
              (jsToString (.num ((bzg.valueToBucketIndex qg : ℕ) : ℚ))) with _ | c
          · rw [hlk, hrest, if_neg Bool.false_ne_true] at hfl
            exact hfl
          · rw [hlk] at hfl
            exact hfl
        exact flattenNode_setKey_preserve hm hnd hfl2

/-- Claim C3 (amended): when the first failing quantized field `f` of a
record is reached (every earlier quantized decomposition field coerces to
a number), the aggregator increments `sa_nnonnumeric`, counts the record,
emits `invalid_object` with the original data point, the message
`value for field "<f>" is not a number` and the 1-based record index, the
result rows are unchanged, and aggregation of any subsequent records
yields the same leaf sums on every key path as if the bad record had
never been seen.  (The tree itself may gain empty intermediate nodes —
see the counterexample.) -/
theorem aggregate_nonnumeric_failure (cfg : AggConfig) (pts : List DataPoint)
    (r : DataPoint) (pre : List String) (f : String) (rest : List String)
    (st : AggState)
    (hdec : cfg.decomps = pre ++ f :: rest)
    (hq : (cfg.bucketizers.lookup f).isSome = true)
    (hbad : coerceNum (pluck r.fields f) = none)
    (hpre : ∀ g ∈ pre, (cfg.bucketizers.lookup g).isSome = true →
      ∃ qg, coerceNum (pluck r.fields g) = some qg)
    (hst : st = pts.foldl (aggregate cfg) (initAggState cfg)) :
    (aggregate cfg st r).sa_nnonnumeric = st.sa_nnonnumeric + 1 ∧
      (aggregate cfg st r).sa_nrecords = st.sa_nrecords + 1 ∧
      (aggregate cfg st r).emitted =
        st.emitted ++ [(r, failMessage f, st.sa_nrecords + 1)] ∧
      resultRows cfg (aggregate cfg st r) = resultRows cfg st ∧
      ∀ (more : List DataPoint) (path : List String),
        leafSum ((more.foldl (aggregate cfg) (aggregate cfg st r)).sa_value) path =
          leafSum ((more.foldl (aggregate cfg) st).sa_value) path := by
  have hwf : WFNode cfg.decomps.length st.sa_value := by
    rw [hst]
    exact foldl_aggregate_wf cfg pts
  have hwf2 : WFNode (pre ++ f :: rest).length st.sa_value := by
    rw [← hdec]
    exact hwf
  obtain ⟨pd, t2, hupd, hls, hfl⟩ :=
    updateTree_fail_first cfg.bucketizers r.fields r.value f rest hq hbad pre
      st.sa_value hwf2 hpre
  have hagg : aggregate cfg st r =
      { st with
        sa_value := t2
        sa_nrecords := st.sa_nrecords + 1
        sa_nparsed := st.sa_nparsed + pd
        sa_nnonnumeric := st.sa_nnonnumeric + 1
        emitted := st.emitted ++ [(r, failMessage f, st.sa_nrecords + 1)] } := by
    unfold aggregate
    rw [hdec, hupd]
  refine ⟨?_, ?_, ?_, ?_, ?_⟩
  · rw [hagg]
  · rw [hagg]
  · rw [hagg]
  · have hfl3 : flattenNode cfg.decomps.length (aggregate cfg st r).sa_value =
        flattenNode cfg.decomps.length st.sa_value := by
      rw [hagg, hdec]
      exact hfl
    unfold resultRows
    rw [hfl3]
  · have hsim : ∀ p, leafSum (aggregate cfg st r).sa_value p =
        leafSum st.sa_value p := by
      intro p
      rw [hagg]
      exact hls p
    intro more path
    exact foldl_aggregate_sim cfg more (aggregate cfg st r) st
      (aggregate_wf cfg st r hwf) hwf hsim path

/-- Witness for C3: a single record whose only (quantized) field `pop`
holds the string `"bogus!"`, aggregated into the empty initial state. -/
theorem aggregate_nonnumeric_failure_witness :
    (aggregate ⟨["pop"], [("pop", skBucketizer.linear 1)]⟩
        (initAggState ⟨["pop"], [("pop", skBucketizer.linear 1)]⟩)
        ⟨[("pop", JSVal.str "bogus!")], 1⟩).sa_nnonnumeric =
      (initAggState ⟨["pop"], [("pop", skBucketizer.linear 1)]⟩).sa_nnonnumeric + 1 ∧
      (aggregate ⟨["pop"], [("pop", skBucketizer.linear 1)]⟩
          (initAggState ⟨["pop"], [("pop", skBucketizer.linear 1)]⟩)
          ⟨[("pop", JSVal.str "bogus!")], 1⟩).sa_nrecords =
        (initAggState ⟨["pop"], [("pop", skBucketizer.linear 1)]⟩).sa_nrecords + 1 ∧
      (aggregate ⟨["pop"], [("pop", skBucketizer.linear 1)]⟩
          (initAggState ⟨["pop"], [("pop", skBucketizer.linear 1)]⟩)
          ⟨[("pop", JSVal.str "bogus!")], 1⟩).emitted =
        (initAggState ⟨["pop"], [("pop", skBucketizer.linear 1)]⟩).emitted ++
          [(⟨[("pop", JSVal.str "bogus!")], 1⟩, failMessage "pop",
            (initAggState ⟨["pop"], [("pop", skBucketizer.linear 1)]⟩).sa_nrecords + 1)] ∧
      resultRows ⟨["pop"], [("pop", skBucketizer.linear 1)]⟩
          (aggregate ⟨["pop"], [("pop", skBucketizer.linear 1)]⟩
            (initAggState ⟨["pop"], [("pop", skBucketizer.linear 1)]⟩)
            ⟨[("pop", JSVal.str "bogus!")], 1⟩) =
        resultRows ⟨["pop"], [("pop", skBucketizer.linear 1)]⟩
          (initAggState ⟨["pop"], [("pop", skBucketizer.linear 1)]⟩) ∧
      ∀ (more : List DataPoint) (path : List String),
        leafSum ((more.foldl (aggregate ⟨["pop"], [("pop", skBucketizer.linear 1)]⟩)
            (aggregate ⟨["pop"], [("pop", skBucketizer.linear 1)]⟩
              (initAggState ⟨["pop"], [("pop", skBucketizer.linear 1)]⟩)
              ⟨[("pop", JSVal.str "bogus!")], 1⟩)).sa_value) path =
          leafSum ((more.foldl (aggregate ⟨["pop"], [("pop", skBucketizer.linear 1)]⟩)
            (initAggState ⟨["pop"], [("pop", skBucketizer.linear 1)]⟩)).sa_value) path :=
  aggregate_nonnumeric_failure ⟨["pop"], [("pop", skBucketizer.linear 1)]⟩ []
    ⟨[("pop", JSVal.str "bogus!")], 1⟩ [] "pop" []
    (initAggState ⟨["pop"], [("pop", skBucketizer.linear 1)]⟩)
    rfl rfl rfl (fun g hg => absurd hg (List.not_mem_nil g)) rfl

/-- Counterexample to claim C3 as stated: the claim says the tree is not
mutated for a failing record, but aggregating the record
`{state: "ZZ", pop: "bogus!"}` (with `pop` quantized) into an empty tree
creates the intermediate node for key `ZZ` — the top-level keys change
from `[]` to `["ZZ"]` — even though the quantization of `pop` failed and
`sa_nnonnumeric` was incremented. -/
theorem aggregate_nonnumeric_mutates_tree :
    topKeys (aggregate ⟨["state", "pop"], [("pop", skBucketizer.linear 100000)]⟩
        (initAggState ⟨["state", "pop"], [("pop", skBucketizer.linear 100000)]⟩)
        ⟨[("state", JSVal.str "ZZ"), ("pop", JSVal.str "bogus!")], 1⟩).sa_value =
      ["ZZ"] ∧
      topKeys (initAggState ⟨["state", "pop"],
        [("pop", skBucketizer.linear 100000)]⟩).sa_value = [] ∧
      (aggregate ⟨["state", "pop"], [("pop", skBucketizer.linear 100000)]⟩
        (initAggState ⟨["state", "pop"], [("pop", skBucketizer.linear 100000)]⟩)
        ⟨[("state", JSVal.str "ZZ"), ("pop", JSVal.str "bogus!")], 1⟩).sa_nnonnumeric =
        1 :=
  ⟨rfl, rfl, rfl⟩
